import Mathlib

/-!
Verification of the task-graph and record-store core of the repository:
TOML-frontmatter task records (`tasklib.py`), the status/graph CLI
(`agentydragon_task.py`) and the cycle checkers (`check_tasks.py`,
`check_task_cycles.py`), shallowly embedded over `List Char` texts.
-/

namespace TaskCore

/-- Texts and identifiers are lists of characters (Python `str`). -/
abbrev Str := List Char

/-- Python `\s` (whitespace) for ASCII texts: the characters stripped by
`str.strip()` / `str.lstrip()`. -/
def isWs (c : Char) : Bool :=
  c = ' ' || c = '\t' || c = '\n' || c = '\r' || c = '\x0b' || c = '\x0c'

/-- `str.lstrip()` : drop leading whitespace. -/
def lstripWs (s : Str) : Str := s.dropWhile isWs

/-- `str.lstrip('\n')` : drop leading newlines only (used on the body in
`load_task`). -/
def lstripNl (s : Str) : Str := s.dropWhile (fun c => c = '\n')

/-- Right strip: drop trailing whitespace, implemented as a fold so the
result is a prefix of the input. -/
def rstripWs (s : Str) : Str :=
  s.foldr (fun c acc => if acc.isEmpty && isWs c then [] else c :: acc) []

/-- `str.strip()` : both-ends strip, as performed by the `\s*(.*?)\s*`
groups of `FRONTMATTER_RE`. -/
def stripWs (s : Str) : Str := lstripWs (rstripWs s)

theorem rstripWs_prefix (s : Str) : (rstripWs s) <+: s := by
  induction s with
  | nil => simp [rstripWs]
  | cons c t ih =>
    simp only [rstripWs, List.foldr_cons]
    by_cases h : (rstripWs t).isEmpty && isWs c
    · simp [rstripWs] at h
      simp [h]
    · simp only [rstripWs] at h
      simp only [h, if_false]
      exact (List.prefix_cons_inj c).mpr ih

theorem lstripWs_suffix (s : Str) : (lstripWs s) <:+ s :=
  List.dropWhile_suffix _

theorem lstripNl_suffix (s : Str) : (lstripNl s) <:+ s :=
  List.dropWhile_suffix _

/-- Heads of `lstripWs` results are never whitespace. -/
theorem lstripWs_head_not_ws (s : Str) :
    ∀ c t, lstripWs s = c :: t → isWs c = false := by
  induction s with
  | nil => intro c t h; simp [lstripWs] at h
  | cons a s ih =>
    intro c t h
    by_cases ha : isWs a
    · simp [lstripWs, List.dropWhile_cons, ha] at h ⊢
      exact ih c t h
    · simp [lstripWs, List.dropWhile_cons, ha] at h
      rw [← h.1] at *
      simpa using ha

/-! ### The `+++` fence of `FRONTMATTER_RE` -/

/-- Does the text begin with the fence delimiter `+++`? -/
def startsPPP : Str → Bool
  | c1 :: c2 :: c3 :: _ => c1 = '+' && c2 = '+' && c3 = '+'
  | _ => false

/-- Index of the first occurrence of `+++` in `s`, if any (the position the
lazy `(.*?)` of `FRONTMATTER_RE` lets the closing fence match at). -/
def firstPPP : Str → Option Nat
  | [] => none
  | c :: t => if startsPPP (c :: t) then some 0 else (firstPPP t).map (· + 1)

/-- `s` contains no `+++` substring. -/
def pppFree (s : Str) : Bool :=
  match s with
  | [] => true
  | c :: t => !startsPPP (c :: t) && pppFree t

theorem pppFree_tail {c : Char} {t : Str} (h : pppFree (c :: t)) : pppFree t := by
  simp [pppFree] at h; exact h.2

theorem pppFree_cons_not_startsPPP {c : Char} {t : Str} (h : pppFree (c :: t)) :
    startsPPP (c :: t) = false := by
  simp [pppFree] at h; exact h.1

theorem pppFree_of_short {s : Str} (h : s.length ≤ 2) : pppFree s = true := by
  match s, h with
  | [], _ => rfl
  | [a], _ => simp [pppFree, startsPPP]
  | [a, b], _ => simp [pppFree, startsPPP]

theorem startsPPP_take {c : Char} {t : Str} {k : Nat}
    (h : startsPPP (c :: t.take k) = true) : startsPPP (c :: t) = true := by
  match t, k, h with
  | c2 :: c3 :: t', k' + 2, h => simpa [startsPPP, List.take] using h
  | [], 0, h => simp [startsPPP] at h
  | [], k' + 1, h => simp [startsPPP] at h
  | [c2], 0, h => simp [startsPPP] at h
  | [c2], 1, h => simp [startsPPP, List.take] at h
  | [c2], k' + 2, h => simp [startsPPP, List.take] at h
  | c2 :: c3 :: t', 0, h => simp [startsPPP] at h
  | c2 :: c3 :: t', 1, h => simp [startsPPP, List.take] at h

/-- `pppFree` is preserved by `take`. -/
theorem pppFree_take {s : Str} (h : pppFree s) (k : Nat) :
    pppFree (s.take k) = true := by
  induction s generalizing k with
  | nil => simp [pppFree]
  | cons c t ih =>
    cases k with
    | zero => simp [pppFree]
    | succ k =>
      simp only [List.take_succ_cons, pppFree, Bool.and_eq_true, Bool.not_eq_true']
      refine ⟨?_, ih (pppFree_tail h) k⟩
      cases hs : startsPPP (c :: t.take k) with
      | false => rfl
      | true => exact absurd (startsPPP_take hs) (by simp [pppFree_cons_not_startsPPP h])

/-- `pppFree` is preserved by `drop`. -/
theorem pppFree_drop {s : Str} (h : pppFree s) (k : Nat) :
    pppFree (s.drop k) = true := by
  induction s generalizing k with
  | nil => simp [pppFree]
  | cons c t ih =>
    cases k with
    | zero => exact h
    | succ k => exact ih (pppFree_tail h) k

theorem pppFree_prefix {a s : Str} (h : pppFree s) (hp : a <+: s) :
    pppFree a = true := by
  obtain ⟨t, rfl⟩ := hp
  simpa using pppFree_take h a.length

theorem pppFree_suffix {a s : Str} (h : pppFree s) (hp : a <:+ s) :
    pppFree a = true := by
  obtain ⟨t, rfl⟩ := hp
  simpa using pppFree_drop h t.length

theorem pppFree_within {a s : Str} (h : pppFree s) (hp : a <:+: s) :
    pppFree a = true := by
  obtain ⟨u, v, rfl⟩ := hp
  exact pppFree_prefix (pppFree_suffix h (by exact ⟨u, by simp⟩)) ⟨v, rfl⟩

/-- Strings without `'+'` at all are trivially `pppFree`. -/
theorem pppFree_of_no_plus {s : Str} (h : ∀ c ∈ s, c ≠ '+') :
    pppFree s = true := by
  induction s with
  | nil => rfl
  | cons c t ih =>
    simp only [pppFree, Bool.and_eq_true, Bool.not_eq_true']
    refine ⟨?_, ih fun c hc => h c (List.mem_cons_of_mem _ hc)⟩
    have hc : c ≠ '+' := h c (List.mem_cons_self _ _)
    match t with
    | [] => rfl
    | [a] => rfl
    | a :: b :: t' => simp [startsPPP, hc]

/-- Appending on the right of a string not ending in `'+'` cannot create a
`+++` run across the boundary. -/
theorem pppFree_append {a b : Str} (ha : pppFree a) (hb : pppFree b)
    (hlast : a.getLast? ≠ some '+') : pppFree (a ++ b) = true := by
  induction a with
  | nil => simpa using hb
  | cons x a' ih =>
    simp only [List.cons_append, pppFree, Bool.and_eq_true, Bool.not_eq_true']
    constructor
    · cases hs : startsPPP (x :: (a' ++ b)) with
      | false => rfl
      | true =>
        exfalso
        match a', hs with
        | [], hs =>
          simp only [List.getLast?] at hlast
          match b, hs with
          | b1 :: b2 :: b', hs =>
            simp only [startsPPP, List.nil_append, Bool.and_eq_true,
              decide_eq_true_eq] at hs
            simp [hs.1.1] at hlast
          | [], hs => simp [startsPPP] at hs
          | [b1], hs => simp [startsPPP] at hs
        | [y], hs =>
          match b, hs with
          | b1 :: b', hs =>
            simp only [startsPPP, List.cons_append, List.nil_append,
              Bool.and_eq_true, decide_eq_true_eq] at hs
            have : y = '+' := hs.1.2
            simp [List.getLast?, this] at hlast
          | [], hs => simp [startsPPP] at hs
        | y :: z :: a'', hs =>
          simp only [startsPPP, List.cons_append, Bool.and_eq_true,
            decide_eq_true_eq] at hs
          have : startsPPP (x :: y :: z :: a'') = true := by
            simp [startsPPP, hs.1.1, hs.1.2, hs.2]
          exact absurd this (by simp [pppFree_cons_not_startsPPP ha])
    · match a', hlast, ha with
      | [], hlast, ha => simpa using hb
      | y :: a'', hlast, ha =>
        exact ih (pppFree_tail ha) (by simpa [List.getLast?_cons_cons] using hlast)

/-- The text before the first `+++` occurrence is `+++`-free. -/
theorem firstPPP_take {s : Str} {j : Nat} (h : firstPPP s = some j) :
    pppFree (s.take j) = true := by
  induction s generalizing j with
  | nil => simp [firstPPP] at h
  | cons c t ih =>
    simp only [firstPPP] at h
    by_cases hs : startsPPP (c :: t) = true
    · simp [hs] at h
      simp [← h, pppFree]
    · simp only [hs, if_neg, Bool.false_eq_true, not_false_iff, if_false,
        Option.map_eq_some'] at h
      obtain ⟨j', hj', rfl⟩ := h
      simp only [List.take_succ_cons, pppFree, Bool.and_eq_true, Bool.not_eq_true']
      refine ⟨?_, ih hj'⟩
      cases hq : startsPPP (c :: t.take j') with
      | false => rfl
      | true => exact absurd (startsPPP_take hq) (by simp [hs])

/-- At the first `+++` occurrence, a `+++` actually starts. -/
theorem firstPPP_drop {s : Str} {j : Nat} (h : firstPPP s = some j) :
    startsPPP (s.drop j) = true := by
  induction s generalizing j with
  | nil => simp [firstPPP] at h
  | cons c t ih =>
    simp only [firstPPP] at h
    by_cases hs : startsPPP (c :: t) = true
    · simp [hs] at h
      simp [← h, hs]
    · simp only [hs, if_neg, Bool.false_eq_true, not_false_iff, if_false,
        Option.map_eq_some'] at h
      obtain ⟨j', hj', rfl⟩ := h
      simpa using ih hj'

/-- Locating the fence in a text of the shape `p ++ "+++" ++ r` where `p`
is `+++`-free and does not end in `'+'`: the first `+++` is the explicit one. -/
theorem firstPPP_append : ∀ (p : Str), pppFree p → p.getLast? ≠ some '+' →
    ∀ r : Str, firstPPP (p ++ '+' :: '+' :: '+' :: r) = some p.length
  | [], _, _, r => by simp [firstPPP, startsPPP]
  | [c], _, hl, r => by
    have hc : c ≠ '+' := by simpa [List.getLast?] using hl
    simp [firstPPP, startsPPP, hc]
  | c :: y :: p', hp, hl, r => by
    have ihr := firstPPP_append (y :: p') (pppFree_tail hp)
      (by simpa [List.getLast?_cons_cons] using hl) r
    have hs : startsPPP (c :: y :: (p' ++ '+' :: '+' :: '+' :: r)) = false := by
      match p', hl, hp with
      | [], hl, hp =>
        have hy : y ≠ '+' := by
          simpa [List.getLast?_cons_cons, List.getLast?] using hl
        simp [startsPPP, hy]
      | z :: p'', hl, hp =>
        have := pppFree_cons_not_startsPPP hp
        simp only [startsPPP, Bool.and_eq_false_iff, decide_eq_false_iff_not,
          List.cons_append] at this ⊢
        exact this
    show (if startsPPP (c :: y :: (p' ++ '+' :: '+' :: '+' :: r)) = true
          then some 0
          else Option.map (· + 1) (firstPPP (y :: (p' ++ '+' :: '+' :: '+' :: r))))
        = some ((y :: p').length + 1)
    rw [hs]
    simp only [Bool.false_eq_true, if_false]
    rw [show (y :: p') ++ '+' :: '+' :: '+' :: r
        = y :: (p' ++ '+' :: '+' :: '+' :: r) from rfl] at ihr
    rw [ihr]
    rfl

/-! ### `load_task` / `save_task` fence handling -/

/-- Model of `FRONTMATTER_RE.match(text)` (`^\+\+\+\s*(.*?)\s*\+\+\+` with
`re.S | re.M`): requires the text to start with `+++`; the closing fence is
the first later occurrence of `+++` (the lazy group), the stripped text in
between is the header (group 1), and the remainder after the closing fence
(`text[m.end():]`) is returned as second component. -/
def findFence (text : Str) : Option (Str × Str) :=
  if startsPPP text then
    match firstPPP (text.drop 3) with
    | some j => some (stripWs ((text.drop 3).take j), (text.drop 3).drop (j + 3))
    | none => none
  else none

theorem stripWs_within (s : Str) : stripWs s <:+: s := by
  have h1 : rstripWs s <+: s := rstripWs_prefix s
  have h2 : lstripWs (rstripWs s) <:+ rstripWs s := lstripWs_suffix _
  exact List.IsInfix.trans (List.IsSuffix.isInfix h2) (List.IsPrefix.isInfix h1)

/-- The header extracted by `findFence` is `+++`-free. -/
theorem findFence_header_pppFree {text g rest : Str}
    (h : findFence text = some (g, rest)) : pppFree g = true := by
  simp only [findFence] at h
  by_cases hs : startsPPP text = true
  · simp only [hs, if_true] at h
    cases hj : firstPPP (text.drop 3) with
    | none => simp [hj] at h
    | some j =>
      simp only [hj, Option.some.injEq, Prod.mk.injEq] at h
      have := firstPPP_take hj
      exact h.1 ▸ pppFree_within this (stripWs_within _)
  · simp [hs] at h

/-! ### Timestamps (`datetime.datetime` with `isoformat` / ISO parsing) -/

/-- Decimal digit character for `k % 10`. -/
def dchar (k : Nat) : Char :=
  match k % 10 with
  | 0 => '0' | 1 => '1' | 2 => '2' | 3 => '3' | 4 => '4'
  | 5 => '5' | 6 => '6' | 7 => '7' | 8 => '8' | _ => '9'

/-- Numeric value of a digit character. -/
def dval (c : Char) : Nat := c.toNat - 48

theorem dchar_isDigit (k : Nat) : (dchar k).isDigit = true := by
  have h : k % 10 < 10 := Nat.mod_lt _ (by norm_num)
  unfold dchar
  set m := k % 10 with hm
  interval_cases m <;> decide

theorem dval_dchar (k : Nat) : dval (dchar k) = k % 10 := by
  have h : k % 10 < 10 := Nat.mod_lt _ (by norm_num)
  unfold dchar
  set m := k % 10 with hm
  interval_cases m <;> decide

theorem dchar_cases (k : Nat) :
    dchar k ∈ ['0', '1', '2', '3', '4', '5', '6', '7', '8', '9'] := by
  have h : k % 10 < 10 := Nat.mod_lt _ (by norm_num)
  unfold dchar
  set m := k % 10 with hm
  interval_cases m <;> decide

/-- Two-digit zero-padded decimal rendering. -/
def pad2 (n : Nat) : Str := [dchar (n / 10), dchar n]

/-- Four-digit zero-padded decimal rendering. -/
def pad4 (n : Nat) : Str := [dchar (n / 1000), dchar (n / 100), dchar (n / 10), dchar n]

/-- Six-digit zero-padded decimal rendering (microseconds). -/
def pad6 (n : Nat) : Str :=
  [dchar (n / 100000), dchar (n / 10000), dchar (n / 1000),
   dchar (n / 100), dchar (n / 10), dchar n]

/-- Read exactly `k` decimal digits from the front of `s`. -/
def readFixed (k : Nat) (s : Str) : Option (Nat × Str) :=
  let pre := s.take k
  if pre.length == k && pre.all Char.isDigit then
    some (pre.foldl (fun a c => 10 * a + dval c) 0, s.drop k)
  else none

theorem readFixed_pad2 {n : Nat} (h : n < 100) (r : Str) :
    readFixed 2 (pad2 n ++ r) = some (n, r) := by
  simp only [readFixed, pad2, List.cons_append, List.nil_append, List.take_succ_cons,
    List.take_zero, List.drop_succ_cons, List.drop_zero, List.length_cons,
    List.length_nil, List.all_cons, List.all_nil, dchar_isDigit, Bool.and_true,
    Bool.and_self, List.foldl_cons, List.foldl_nil]
  norm_num
  rw [dval_dchar, dval_dchar]
  omega

theorem readFixed_pad4 {n : Nat} (h : n < 10000) (r : Str) :
    readFixed 4 (pad4 n ++ r) = some (n, r) := by
  simp only [readFixed, pad4, List.cons_append, List.nil_append, List.take_succ_cons,
    List.take_zero, List.drop_succ_cons, List.drop_zero, List.length_cons,
    List.length_nil, List.all_cons, List.all_nil, dchar_isDigit, Bool.and_true,
    Bool.and_self, List.foldl_cons, List.foldl_nil]
  norm_num
  rw [dval_dchar, dval_dchar, dval_dchar, dval_dchar]
  omega

theorem readFixed_pad6 {n : Nat} (h : n < 1000000) (r : Str) :
    readFixed 6 (pad6 n ++ r) = some (n, r) := by
  simp only [readFixed, pad6, List.cons_append, List.nil_append, List.take_succ_cons,
    List.take_zero, List.drop_succ_cons, List.drop_zero, List.length_cons,
    List.length_nil, List.all_cons, List.all_nil, dchar_isDigit, Bool.and_true,
    Bool.and_self, List.foldl_cons, List.foldl_nil]
  norm_num
  rw [dval_dchar, dval_dchar, dval_dchar, dval_dchar, dval_dchar, dval_dchar]
  omega

/-- A `datetime.datetime` value (UTC, microsecond precision). -/
structure DateTime where
  year : Nat
  month : Nat
  day : Nat
  hour : Nat
  minute : Nat
  second : Nat
  micro : Nat
deriving DecidableEq, Repr

def isLeap (y : Nat) : Bool := (y % 4 == 0 && y % 100 != 0) || y % 400 == 0

def daysInMonth (y m : Nat) : Nat :=
  if m = 2 then (if isLeap y then 29 else 28)
  else if m = 4 ∨ m = 6 ∨ m = 9 ∨ m = 11 then 30 else 31

/-- The range constraints `datetime.datetime` enforces on its fields. -/
def ValidDT (d : DateTime) : Prop :=
  1 ≤ d.year ∧ d.year ≤ 9999 ∧ 1 ≤ d.month ∧ d.month ≤ 12 ∧
  1 ≤ d.day ∧ d.day ≤ daysInMonth d.year d.month ∧
  d.hour ≤ 23 ∧ d.minute ≤ 59 ∧ d.second ≤ 59 ∧ d.micro ≤ 999999

instance (d : DateTime) : Decidable (ValidDT d) := by
  unfold ValidDT; infer_instance

/-- `datetime.isoformat()`: `YYYY-MM-DDTHH:MM:SS` plus `.ffffff` exactly when
the microsecond field is nonzero. -/
def isoDT (d : DateTime) : Str :=
  pad4 d.year ++ ('-' :: (pad2 d.month ++ ('-' :: (pad2 d.day ++
  ('T' :: (pad2 d.hour ++ (':' :: (pad2 d.minute ++ (':' :: (pad2 d.second ++
  (if d.micro = 0 then [] else '.' :: pad6 d.micro)))))))))))

def expectChar (c : Char) : Str → Option Str
  | x :: t => if x = c then some t else none
  | [] => none

/-- Fractional-seconds suffix: `.ffffff` (six digits) or nothing. -/
def parseFrac : Str → Option (Nat × Str)
  | '.' :: t => readFixed 6 t
  | s => some (0, s)

theorem parseFrac_nil : parseFrac [] = some (0, []) := rfl

/-- ISO-format timestamp parsing (the subset of `pydantic`'s datetime
validation / the TOML datetime literal grammar that `isoformat` emits). -/
def parseDT (s : Str) : Option DateTime :=
  (readFixed 4 s).bind fun p1 =>
  (expectChar '-' p1.2).bind fun s2 =>
  (readFixed 2 s2).bind fun p2 =>
  (expectChar '-' p2.2).bind fun s3 =>
  (readFixed 2 s3).bind fun p3 =>
  (expectChar 'T' p3.2).bind fun s4 =>
  (readFixed 2 s4).bind fun p4 =>
  (expectChar ':' p4.2).bind fun s5 =>
  (readFixed 2 s5).bind fun p5 =>
  (expectChar ':' p5.2).bind fun s6 =>
  (readFixed 2 s6).bind fun p6 =>
  (parseFrac p6.2).bind fun p7 =>
  if p7.2.isEmpty then
    if ValidDT ⟨p1.1, p2.1, p3.1, p4.1, p5.1, p6.1, p7.1⟩ then
      some ⟨p1.1, p2.1, p3.1, p4.1, p5.1, p6.1, p7.1⟩
    else none
  else none

theorem daysInMonth_le (y m : Nat) : daysInMonth y m ≤ 31 := by
  unfold daysInMonth; split
  · split <;> omega
  · split <;> omega

/-- Round trip: parsing an `isoformat` rendering recovers the value. -/
theorem parseDT_isoDT {d : DateTime} (h : ValidDT d) :
    parseDT (isoDT d) = some d := by
  obtain ⟨y, mo, da, hh, mi, se, us⟩ := d
  obtain ⟨h1, h2, h3, h4, h5, h6, h7, h8, h9, h10⟩ := h
  dsimp only at h1 h2 h3 h4 h5 h6 h7 h8 h9 h10
  have hda : da < 100 := by have := daysInMonth_le y mo; omega
  rw [isoDT, parseDT]
  dsimp only
  rw [readFixed_pad4 (by omega : y < 10000)]
  simp only [Option.some_bind]
  rw [show ∀ t : Str, expectChar '-' ('-' :: t) = some t from fun t => by simp [expectChar]]
  simp only [Option.some_bind]
  rw [readFixed_pad2 (by omega : mo < 100)]
  simp only [Option.some_bind]
  rw [show ∀ t : Str, expectChar '-' ('-' :: t) = some t from fun t => by simp [expectChar]]
  simp only [Option.some_bind]
  rw [readFixed_pad2 hda]
  simp only [Option.some_bind]
  rw [show ∀ t : Str, expectChar 'T' ('T' :: t) = some t from fun t => by simp [expectChar]]
  simp only [Option.some_bind]
  rw [readFixed_pad2 (by omega : hh < 100)]
  simp only [Option.some_bind]
  rw [show ∀ t : Str, expectChar ':' (':' :: t) = some t from fun t => by simp [expectChar]]
  simp only [Option.some_bind]
  rw [readFixed_pad2 (by omega : mi < 100)]
  simp only [Option.some_bind]
  rw [show ∀ t : Str, expectChar ':' (':' :: t) = some t from fun t => by simp [expectChar]]
  simp only [Option.some_bind]
  by_cases hus : us = 0
  · subst hus
    rw [if_pos rfl, readFixed_pad2 (by omega : se < 100)]
    simp only [Option.some_bind, parseFrac_nil, List.isEmpty_nil, if_true]
    exact if_pos ⟨h1, h2, h3, h4, h5, h6, h7, h8, h9, by show (0:Nat) ≤ 999999; omega⟩
  · rw [if_neg hus, readFixed_pad2 (by omega : se < 100)]
    simp only [Option.some_bind]
    rw [show parseFrac ('.' :: pad6 us) = readFixed 6 (pad6 us) from rfl,
      show pad6 us = pad6 us ++ ([] : Str) from (List.append_nil _).symm,
      readFixed_pad6 (by omega : us < 1000000)]
    simp only [Option.some_bind, List.isEmpty_nil, if_true]
    exact if_pos ⟨h1, h2, h3, h4, h5, h6, h7, h8, h9, h10⟩

theorem pad2_digits (n : Nat) : ∀ c ∈ pad2 n, c.isDigit = true := by
  intro c hc
  simp only [pad2, List.mem_cons, List.not_mem_nil, or_false] at hc
  rcases hc with rfl | rfl <;> exact dchar_isDigit _

theorem pad4_digits (n : Nat) : ∀ c ∈ pad4 n, c.isDigit = true := by
  intro c hc
  simp only [pad4, List.mem_cons, List.not_mem_nil, or_false] at hc
  rcases hc with rfl | rfl | rfl | rfl <;> exact dchar_isDigit _

theorem pad6_digits (n : Nat) : ∀ c ∈ pad6 n, c.isDigit = true := by
  intro c hc
  simp only [pad6, List.mem_cons, List.not_mem_nil, or_false] at hc
  rcases hc with rfl | rfl | rfl | rfl | rfl | rfl <;> exact dchar_isDigit _

/-- Every character of an `isoformat` rendering is a digit or one of the
four separators. -/
theorem isoDT_chars (d : DateTime) :
    ∀ c ∈ isoDT d, c.isDigit = true ∨ c = '-' ∨ c = 'T' ∨ c = ':' ∨ c = '.' := by
  intro c hc
  by_cases hus : d.micro = 0
  · simp only [isoDT, hus, if_pos, List.append_nil, List.mem_append,
      List.mem_cons] at hc
    rcases hc with h | rfl | h | rfl | h | rfl | h | rfl | h | rfl | h
    · exact Or.inl (pad4_digits _ _ h)
    · right; simp
    · exact Or.inl (pad2_digits _ _ h)
    · right; simp
    · exact Or.inl (pad2_digits _ _ h)
    · right; simp
    · exact Or.inl (pad2_digits _ _ h)
    · right; simp
    · exact Or.inl (pad2_digits _ _ h)
    · right; simp
    · exact Or.inl (pad2_digits _ _ h)
  · simp only [isoDT, hus, if_neg, ite_false, List.mem_append, List.mem_cons] at hc
    rcases hc with h | rfl | h | rfl | h | rfl | h | rfl | h | rfl | h | rfl | h
    · exact Or.inl (pad4_digits _ _ h)
    · right; simp
    · exact Or.inl (pad2_digits _ _ h)
    · right; simp
    · exact Or.inl (pad2_digits _ _ h)
    · right; simp
    · exact Or.inl (pad2_digits _ _ h)
    · right; simp
    · exact Or.inl (pad2_digits _ _ h)
    · right; simp
    · exact Or.inl (pad2_digits _ _ h)
    · right; simp
    · exact Or.inl (pad6_digits _ _ h)

/-! ### TOML basic strings: escaping (`toml.dumps`) and scanning (`toml.loads`) -/

/-- Escape one character the way the TOML writer renders basic strings. -/
def escChar (c : Char) : Str :=
  if c = '\\' then ['\\', '\\']
  else if c = '"' then ['\\', '"']
  else if c = '\n' then ['\\', 'n']
  else if c = '\t' then ['\\', 't']
  else if c = '\r' then ['\\', 'r']
  else if c = '\x0c' then ['\\', 'f']
  else if c = '\x08' then ['\\', 'b']
  else [c]

/-- TOML basic-string rendering of the characters of `s` (no surrounding
quotes). -/
def encStr : Str → Str
  | [] => []
  | c :: t => escChar c ++ encStr t

/-- Unescape table of the TOML reader (the `\u`/`\U` forms are outside the
modelled subset). -/
def unesc (e : Char) : Option Char :=
  if e = '\\' then some '\\'
  else if e = '"' then some '"'
  else if e = 'n' then some '\n'
  else if e = 't' then some '\t'
  else if e = 'r' then some '\r'
  else if e = 'f' then some '\x0c'
  else if e = 'b' then some '\x08'
  else none

/-- Scan a TOML basic string after its opening quote: returns the decoded
value and what follows the closing quote. -/
def scanStr : Str → Option (Str × Str)
  | [] => none
  | c :: r =>
    if c = '"' then some ([], r)
    else if c = '\\' then
      match r with
      | [] => none
      | e :: r' => (unesc e).bind fun u => (scanStr r').map fun p => (u :: p.1, p.2)
    else (scanStr r).map fun p => (c :: p.1, p.2)

/-- Each character's escape form either is a two-character escape that the
reader decodes back, or the character itself (then neither quote nor
backslash). -/
theorem escChar_spec (c : Char) :
    (∃ e, escChar c = ['\\', e] ∧ unesc e = some c ∧ e ≠ '+') ∨
    (escChar c = [c] ∧ c ≠ '"' ∧ c ≠ '\\') := by
  unfold escChar
  by_cases h1 : c = '\\'
  · subst h1; left; exact ⟨'\\', by simp [unesc]⟩
  by_cases h2 : c = '"'
  · subst h2; left; exact ⟨'"', by simp [unesc]⟩
  by_cases h3 : c = '\n'
  · subst h3; left; refine ⟨'n', by simp [unesc]⟩
  by_cases h4 : c = '\t'
  · subst h4; left; refine ⟨'t', by simp [unesc]⟩
  by_cases h5 : c = '\r'
  · subst h5; left; refine ⟨'r', by simp [unesc]⟩
  by_cases h6 : c = '\x0c'
  · subst h6; left; refine ⟨'f', by simp [unesc]⟩
  by_cases h7 : c = '\x08'
  · subst h7; left; refine ⟨'b', by simp [unesc]⟩
  right
  simp [h1, h2, h3, h4, h5, h6, h7]

/-- Scanning an encoded string recovers it: the writer/reader inverse for
basic strings. -/
theorem scanStr_encStr : ∀ (v r : Str), scanStr (encStr v ++ '"' :: r) = some (v, r)
  | [], r => by
    show scanStr ('"' :: r) = some ([], r)
    rw [scanStr.eq_def]
    dsimp only
    rw [if_pos rfl]
  | c :: t, r => by
    rcases escChar_spec c with ⟨e, he, hu, _⟩ | ⟨he, hq, hb⟩
    · rw [encStr, he]
      simp only [List.cons_append, List.nil_append, List.append_assoc]
      rw [scanStr]
      rw [if_neg (by decide : ¬('\\' : Char) = '"'), if_pos rfl]
      show ((unesc e).bind fun u =>
        (scanStr (encStr t ++ '"' :: r)).map fun p => (u :: p.1, p.2)) = some (c :: t, r)
      rw [hu, scanStr_encStr t r]
      simp
    · rw [encStr, he]
      simp only [List.cons_append, List.nil_append, List.append_assoc]
      rw [scanStr.eq_def]
      dsimp only
      rw [if_neg hq, if_neg hb, scanStr_encStr t r]
      rfl

/-- Length of the leading run of `'+'` characters. -/
def leadPlus : Str → Nat
  | [] => 0
  | c :: t => if c = '+' then leadPlus t + 1 else 0

theorem leadPlus_ge_two {r : Str} (h : 2 ≤ leadPlus r) :
    ∃ t, r = '+' :: '+' :: t := by
  match r with
  | [] => simp [leadPlus] at h
  | [c] =>
    by_cases hc : c = '+' <;> simp [leadPlus, hc] at h
  | c :: d :: t =>
    by_cases hc : c = '+'
    · by_cases hd : d = '+'
      · exact ⟨t, by rw [hc, hd]⟩
      · simp [leadPlus, hc, hd] at h
    · simp [leadPlus, hc] at h

theorem startsPPP_of_cons_leadPlus {c : Char} {v : Str} (hc : c = '+')
    (h : 2 ≤ leadPlus v) : startsPPP (c :: v) = true := by
  obtain ⟨t, rfl⟩ := leadPlus_ge_two h
  simp [startsPPP, hc]

theorem leadPlus_of_startsPPP {c : Char} {v : Str}
    (h : startsPPP (c :: v) = true) : c = '+' ∧ 2 ≤ leadPlus v := by
  match v, h with
  | a :: b :: t, h =>
    simp only [startsPPP, Bool.and_eq_true, decide_eq_true_eq] at h
    exact ⟨h.1.1, by simp [leadPlus, h.1.2, h.2]⟩
  | [], h => simp [startsPPP] at h
  | [a], h => simp [startsPPP] at h

theorem unesc_ne_plus {e u : Char} (h : unesc e = some u) : u ≠ '+' := by
  unfold unesc at h
  split_ifs at h <;>
    first
      | (simp only [Option.some.injEq] at h; subst h; decide)
      | simp at h

/-- Scanning a `+++`-free input yields a `+++`-free value whose leading
`'+'` run is no longer than the input's. -/
theorem scanStr_pppFree : ∀ (s v rest : Str), scanStr s = some (v, rest) →
    pppFree s = true → pppFree v = true ∧ leadPlus v ≤ leadPlus s
  | [], v, rest, h, _ => by simp [scanStr] at h
  | c :: r, v, rest, h, hf => by
    rw [scanStr.eq_def] at h
    dsimp only at h
    by_cases hq : c = '"'
    · rw [if_pos hq] at h
      obtain ⟨rfl, rfl⟩ : [] = v ∧ r = rest := by
        simpa [Prod.ext_iff] using h
      simp [pppFree, leadPlus]
    · rw [if_neg hq] at h
      by_cases hb : c = '\\'
      · rw [if_pos hb] at h
        match r, h, hf with
        | [], h, hf => simp at h
        | e :: r', h, hf =>
          dsimp only at h
          cases hu : unesc e with
          | none => rw [hu] at h; simp at h
          | some u =>
            rw [hu] at h
            simp only [Option.some_bind] at h
            cases hsc : scanStr r' with
            | none => rw [hsc] at h; simp at h
            | some p =>
              rw [hsc] at h
              simp only [Option.map_some'] at h
              obtain ⟨rfl, rfl⟩ : u :: p.1 = v ∧ p.2 = rest := by
                simpa [Prod.ext_iff] using h
              have hr' : pppFree r' = true :=
                pppFree_tail (pppFree_tail hf)
              have ih := scanStr_pppFree r' p.1 p.2 (by rw [hsc]) hr'
              have hune := unesc_ne_plus hu
              constructor
              · simp only [pppFree, Bool.and_eq_true, Bool.not_eq_true']
                refine ⟨?_, ih.1⟩
                cases hst : startsPPP (u :: p.1) with
                | false => rfl
                | true => exact absurd (leadPlus_of_startsPPP hst).1 hune
              · simp [leadPlus, hune]
      · rw [if_neg hb] at h
        cases hsc : scanStr r with
        | none => rw [hsc] at h; simp at h
        | some p =>
          rw [hsc] at h
          simp only [Option.map_some'] at h
          obtain ⟨rfl, rfl⟩ : c :: p.1 = v ∧ p.2 = rest := by
            simpa [Prod.ext_iff] using h
          have ih := scanStr_pppFree r p.1 p.2 (by rw [hsc]) (pppFree_tail hf)
          constructor
          · simp only [pppFree, Bool.and_eq_true, Bool.not_eq_true']
            refine ⟨?_, ih.1⟩
            cases hst : startsPPP (c :: p.1) with
            | false => rfl
            | true =>
              obtain ⟨hcp, h2⟩ := leadPlus_of_startsPPP hst
              have : startsPPP (c :: r) = true :=
                startsPPP_of_cons_leadPlus hcp (le_trans h2 ih.2)
              exact absurd this (by simp [pppFree_cons_not_startsPPP hf])
          · by_cases hcp : c = '+'
            · have := ih.2
              simp only [leadPlus, hcp, if_pos]
              omega
            · simp [leadPlus, hcp]

/-- Encoding preserves the length of the leading `'+'` run. -/
theorem leadPlus_encStr : ∀ t : Str, leadPlus (encStr t) = leadPlus t
  | [] => rfl
  | c :: t => by
    rcases escChar_spec c with ⟨e, he, _, _⟩ | ⟨he, _, _⟩
    · rw [encStr, he]
      by_cases hc : c = '+'
      · exfalso
        rw [hc] at he
        simp [escChar] at he
      · simp [leadPlus, hc]
    · rw [encStr, he]
      by_cases hc : c = '+'
      · simp [leadPlus, hc, leadPlus_encStr t]
      · simp [leadPlus, hc]

/-- Encoding preserves `+++`-freedom. -/
theorem encStr_pppFree : ∀ {v : Str}, pppFree v = true → pppFree (encStr v) = true
  | [], _ => rfl
  | c :: t, hv => by
    have iht := encStr_pppFree (pppFree_tail hv)
    rcases escChar_spec c with ⟨e, he, hu, hep⟩ | ⟨he, _, _⟩
    · rw [encStr, he]
      refine pppFree_append (pppFree_of_short (by simp)) iht ?_
      simp [List.getLast?, hep]
    · rw [encStr, he]
      by_cases hc : c = '+'
      · show pppFree (c :: encStr t) = true
        simp only [pppFree, Bool.and_eq_true, Bool.not_eq_true']
        refine ⟨?_, iht⟩
        cases hst : startsPPP (c :: encStr t) with
        | false => rfl
        | true =>
          obtain ⟨_, h2⟩ := leadPlus_of_startsPPP hst
          rw [leadPlus_encStr t] at h2
          have : startsPPP (c :: t) = true := startsPPP_of_cons_leadPlus hc h2
          exact absurd this (by simp [pppFree_cons_not_startsPPP hv])
      · exact pppFree_append (by simp [pppFree_of_short]) iht
          (by simp [List.getLast?, hc])

/-- Characters that are not escaped encode to themselves. -/
theorem encStr_id {s : Str} (h : ∀ c ∈ s, escChar c = [c]) : encStr s = s := by
  induction s with
  | nil => rfl
  | cons c t ih =>
    rw [encStr, h c (List.mem_cons_self _ _), ih fun c hc => h c (List.mem_cons_of_mem _ hc)]
    rfl

/-! ### TOML key/value documents and `TaskMeta` -/

/-- A TOML value in the subset the task records use: basic strings and bare
datetime literals. -/
inductive TomlVal where
  | str (s : Str)
  | dt (d : DateTime)
deriving DecidableEq, Repr

def isBareKeyChar (c : Char) : Bool := c.isAlphanum || c = '_' || c = '-'

def isSp (c : Char) : Bool := c = ' ' || c = '\t'

/-- Split a text into its lines at `'\n'`. -/
def splitNl : Str → List Str
  | [] => [[]]
  | c :: t =>
    if c = '\n' then [] :: splitNl t
    else
      match splitNl t with
      | h :: r => (c :: h) :: r
      | [] => [[c]]

/-- Parse one stripped `key = value` line: a bare key, `=` surrounded by
optional spacing, then either a quoted basic string or a bare datetime. -/
def parseLine (l : Str) : Option (Str × TomlVal) :=
  let k := l.takeWhile isBareKeyChar
  if k.isEmpty then none
  else
    match expectChar '=' ((l.dropWhile isBareKeyChar).dropWhile isSp) with
    | none => none
    | some r3 =>
      let r4 := r3.dropWhile isSp
      if r4.head? = some '"' then
        match scanStr r4.tail with
        | some (v, rest) => if (rest.dropWhile isSp).isEmpty then some (k, .str v) else none
        | none => none
      else
        match parseDT (rstripWs r4) with
        | some d => some (k, .dt d)
        | none => none

/-- Parse the header document line by line, skipping blank and comment
lines and rejecting duplicate keys (`toml.loads`). -/
def parseTomlAux : List Str → List (Str × TomlVal) → Option (List (Str × TomlVal))
  | [], acc => some acc
  | l :: ls, acc =>
    let sl := stripWs l
    if sl.isEmpty then parseTomlAux ls acc
    else if sl.head? = some '#' then parseTomlAux ls acc
    else
      match parseLine sl with
      | none => none
      | some (k, v) =>
        if (List.lookup k acc).isSome then none
        else parseTomlAux ls (acc ++ [(k, v)])

def parseToml (g : Str) : Option (List (Str × TomlVal)) := parseTomlAux (splitNl g) []

/-- `TaskMeta` (the `pydantic` model of `tasklib.py`): note that `status` is
an arbitrary string — the model declares no enumeration constraint. -/
structure TaskMeta where
  id : Str
  title : Str
  status : Str
  dependencies : Str
  last_updated : DateTime
deriving DecidableEq, Repr

def kId : Str := ['i', 'd']
def kTitle : Str := ['t', 'i', 't', 'l', 'e']
def kStatus : Str := ['s', 't', 'a', 't', 'u', 's']
def kDeps : Str := ['d', 'e', 'p', 'e', 'n', 'd', 'e', 'n', 'c', 'i', 'e', 's']
def kLastUpdated : Str := ['l', 'a', 's', 't', '_', 'u', 'p', 'd', 'a', 't', 'e', 'd']

/-- A string-typed value (`pydantic` `str` fields reject datetimes). -/
def asStr : TomlVal → Option Str
  | .str s => some s
  | .dt _ => none

/-- Build a `TaskMeta` from the parsed header (`TaskMeta(**meta)`):
`id`, `title`, `status` required strings, `dependencies` defaults to the
empty string, `last_updated` defaults to the load time `now`; a string
`last_updated` must parse as a timestamp. -/
def buildMeta (kvs : List (Str × TomlVal)) (now : DateTime) : Option TaskMeta :=
  ((List.lookup kId kvs).bind asStr).bind fun i =>
  ((List.lookup kTitle kvs).bind asStr).bind fun ti =>
  ((List.lookup kStatus kvs).bind asStr).bind fun st =>
  (match List.lookup kDeps kvs with
   | none => some []
   | some v => asStr v).bind fun dep =>
  (match List.lookup kLastUpdated kvs with
   | none => some now
   | some (.str s) => parseDT s
   | some (.dt d) => some d).bind fun lu =>
  some ⟨i, ti, st, dep, lu⟩

inductive LoadErr where
  | parse
  | toml
  | validation
deriving DecidableEq, Repr

/-- `load_task`: match the frontmatter fence (else the `ValueError`
"No TOML frontmatter"), parse the header as TOML, validate it into a
`TaskMeta`, and return the remaining text with leading newlines stripped
as the body. -/
def loadTask (text : Str) (now : DateTime) : Except LoadErr (TaskMeta × Str) :=
  match findFence text with
  | none => .error .parse
  | some (g, rest) =>
    match parseToml g with
    | none => .error .toml
    | some kvs =>
      match buildMeta kvs now with
      | none => .error .validation
      | some tm => .ok (tm, lstripNl rest)

/-- One `key = "value"` line as `toml.dumps` renders it. -/
def renderLine (k : Str) (v : Str) : Str :=
  k ++ (' ' :: '=' :: ' ' :: '"' :: (encStr v ++ ['"']))

/-- `toml.dumps(meta.dict()).strip()` with `last_updated` replaced by its
`isoformat()` string, fields in model declaration order. -/
def dumpsMeta (tm : TaskMeta) : Str :=
  renderLine kId tm.id ++ ('\n' ::
  (renderLine kTitle tm.title ++ ('\n' ::
  (renderLine kStatus tm.status ++ ('\n' ::
  (renderLine kDeps tm.dependencies ++ ('\n' ::
  renderLine kLastUpdated (isoDT tm.last_updated))))))))

/-- `save_task`'s file content: `f"+++\n{fm}\n+++\n\n{body.lstrip()}"`. -/
def saveContent (tm : TaskMeta) (body : Str) : Str :=
  '+' :: '+' :: '+' :: '\n' ::
  (dumpsMeta tm ++ ('\n' :: '+' :: '+' :: '+' :: '\n' :: '\n' :: lstripWs body))

/-! ### Utility lemmas for the round-trip proofs -/

theorem pppFree_cons_ne_plus {c : Char} {x : Str} (hc : c ≠ '+')
    (hx : pppFree x = true) : pppFree (c :: x) = true := by
  simp only [pppFree, Bool.and_eq_true, Bool.not_eq_true']
  refine ⟨?_, hx⟩
  cases hst : startsPPP (c :: x) with
  | false => rfl
  | true => exact absurd (leadPlus_of_startsPPP hst).1 hc

/-- Appending a string not starting with `'+'` cannot create a `+++` run
across the boundary. -/
theorem pppFree_append_head {a b : Str} (ha : pppFree a) (hb : pppFree b)
    (hhead : b.head? ≠ some '+') : pppFree (a ++ b) = true := by
  induction a with
  | nil => simpa using hb
  | cons x a' ih =>
    have tail : pppFree (a' ++ b) = true := ih (pppFree_tail ha)
    refine List.cons_append x a' b ▸ ?_
    simp only [pppFree, Bool.and_eq_true, Bool.not_eq_true']
    refine ⟨?_, tail⟩
    cases hs : startsPPP (x :: (a' ++ b)) with
    | false => rfl
    | true =>
      exfalso
      match a', hs with
      | [], hs =>
        obtain ⟨_, h2⟩ := leadPlus_of_startsPPP hs
        obtain ⟨t, rfl⟩ := leadPlus_ge_two (by simpa using h2)
        simp at hhead
      | [y], hs =>
        obtain ⟨hx, h2⟩ := leadPlus_of_startsPPP hs
        simp only [List.cons_append, List.nil_append, leadPlus] at h2
        by_cases hy : y = '+'
        · match b, hhead with
          | [], _ => simp [leadPlus, hy] at h2
          | b0 :: b', hhead =>
            simp only [List.head?] at hhead
            by_cases hb0 : b0 = '+'
            · exact hhead (by rw [hb0])
            · simp [leadPlus, hy, hb0] at h2
        · simp [hy] at h2
      | y :: z :: a'', hs =>
        simp only [startsPPP, List.cons_append, Bool.and_eq_true,
          decide_eq_true_eq] at hs
        have : startsPPP (x :: y :: z :: a'') = true := by
          simp [startsPPP, hs.1.1, hs.1.2, hs.2]
        exact absurd this (by simp [pppFree_cons_not_startsPPP ha])

theorem rstripWs_eq_self : ∀ {l : Str}, (∀ c, l.getLast? = some c → isWs c = false) →
    rstripWs l = l
  | [], _ => rfl
  | [c], h => by
    have := h c (by simp)
    simp [rstripWs, this]
  | c :: d :: t, h => by
    have ih := @rstripWs_eq_self (d :: t)
      (fun x hx => h x (by rw [List.getLast?_cons_cons]; exact hx))
    show (if (rstripWs (d :: t)).isEmpty && isWs c then [] else c :: rstripWs (d :: t))
      = c :: d :: t
    rw [ih]
    simp

theorem lstripWs_eq_self {l : Str} (h : ∀ c, l.head? = some c → isWs c = false) :
    lstripWs l = l := by
  match l with
  | [] => rfl
  | c :: t =>
    have := h c rfl
    simp [lstripWs, List.dropWhile_cons, this]

theorem lstripNl_eq_self {l : Str} (h : ∀ c, l.head? = some c → isWs c = false) :
    lstripNl l = l := by
  match l with
  | [] => rfl
  | c :: t =>
    have hc := h c rfl
    have : ¬(c = '\n') := by
      intro hcn; rw [hcn] at hc; simp [isWs] at hc
    simp [lstripNl, List.dropWhile_cons, this]

theorem lstripWs_head_ok (s : Str) :
    ∀ c, (lstripWs s).head? = some c → isWs c = false := by
  intro c hc
  match hl : lstripWs s with
  | [] => rw [hl] at hc; simp at hc
  | x :: t =>
    rw [hl] at hc
    simp only [List.head?] at hc
    cases hc
    exact lstripWs_head_not_ws s _ t hl

theorem rstripWs_append_ws {l : Str} {c : Char} (hc : isWs c = true) :
    rstripWs (l ++ [c]) = rstripWs l := by
  unfold rstripWs
  rw [List.foldr_append]
  simp [hc]

theorem stripWs_sandwich {l : Str} (hhead : ∀ c, l.head? = some c → isWs c = false)
    (hlast : ∀ c, l.getLast? = some c → isWs c = false) {a b : Char}
    (ha : isWs a = true) (hb : isWs b = true) :
    stripWs (a :: (l ++ [b])) = l := by
  unfold stripWs
  rw [show a :: (l ++ [b]) = (a :: l) ++ [b] from rfl, rstripWs_append_ws hb]
  match l with
  | [] =>
    simp [rstripWs, lstripWs, ha]
  | c :: t =>
    have hr : rstripWs (a :: c :: t) = a :: c :: t := by
      apply rstripWs_eq_self
      intro x hx
      rw [List.getLast?_cons_cons] at hx
      exact hlast x hx
    rw [hr]
    show lstripWs (a :: c :: t) = c :: t
    rw [show lstripWs (a :: c :: t) = lstripWs (c :: t) from by
      simp [lstripWs, List.dropWhile_cons, ha]]
    exact lstripWs_eq_self hhead

theorem takeWhile_append_left {p : Char → Bool} : ∀ {k r : Str},
    (∀ c ∈ k, p c = true) → (∀ c, r.head? = some c → p c = false) →
    (k ++ r).takeWhile p = k
  | [], r, _, hr => by
    match r with
    | [] => rfl
    | c :: r' => simp [List.takeWhile_cons, hr c rfl]
  | x :: k', r, hk, hr => by
    have hx := hk x (List.mem_cons_self _ _)
    simp only [List.cons_append, List.takeWhile_cons, hx, if_true]
    rw [takeWhile_append_left (fun c hc => hk c (List.mem_cons_of_mem _ hc)) hr]

theorem dropWhile_append_left {p : Char → Bool} : ∀ {k r : Str},
    (∀ c ∈ k, p c = true) → (∀ c, r.head? = some c → p c = false) →
    (k ++ r).dropWhile p = r
  | [], r, _, hr => by
    match r with
    | [] => rfl
    | c :: r' => simp [List.dropWhile_cons, hr c rfl]
  | x :: k', r, hk, hr => by
    have hx := hk x (List.mem_cons_self _ _)
    simp only [List.cons_append, List.dropWhile_cons, hx, if_true]
    exact dropWhile_append_left (fun c hc => hk c (List.mem_cons_of_mem _ hc)) hr

theorem lookup_mem {α β : Type} [BEq α] [LawfulBEq α] :
    ∀ {l : List (α × β)} {k : α} {v : β}, List.lookup k l = some v → (k, v) ∈ l
  | [], k, v, h => by simp [List.lookup] at h
  | (a, b) :: t, k, v, h => by
    rw [List.lookup] at h
    cases hbeq : k == a with
    | true =>
      rw [hbeq] at h
      dsimp only at h
      cases h
      have : k = a := eq_of_beq hbeq
      subst this
      exact List.mem_cons_self _ _
    | false =>
      rw [hbeq] at h
      dsimp only at h
      exact List.mem_cons_of_mem _ (lookup_mem h)

theorem getLast?_append_right {a b : Str} (hb : b ≠ []) :
    (a ++ b).getLast? = b.getLast? := by
  induction a with
  | nil => rfl
  | cons x a' ih =>
    rw [List.cons_append]
    match ha : a' ++ b with
    | [] => exact absurd (List.append_eq_nil.mp ha).2 hb
    | y :: t =>
      rw [List.getLast?_cons_cons, ← ha, ih]

/-- `splitNl` never returns an empty list, and its first part is a prefix of
the input. -/
theorem splitNl_head_prefix : ∀ t : Str, ∃ h r, splitNl t = h :: r ∧ h <+: t
  | [] => ⟨[], [], rfl, List.nil_prefix⟩
  | c :: t => by
    by_cases hc : c = '\n'
    · exact ⟨[], splitNl t, by simp [splitNl, hc], List.nil_prefix⟩
    · obtain ⟨h, r, hsp, hpre⟩ := splitNl_head_prefix t
      refine ⟨c :: h, r, ?_, (List.prefix_cons_inj c).mpr hpre⟩
      simp only [splitNl, hc, if_false, hsp]

theorem pppFree_cons_of_prefix {c : Char} {t h : Str} (hl : pppFree (c :: t) = true)
    (hpre : h <+: t) (hh : pppFree h = true) : pppFree (c :: h) = true := by
  simp only [pppFree, Bool.and_eq_true, Bool.not_eq_true']
  refine ⟨?_, hh⟩
  cases hs : startsPPP (c :: h) with
  | false => rfl
  | true =>
    have heq : h = t.take h.length := List.prefix_iff_eq_take.mp hpre
    rw [heq] at hs
    exact absurd (startsPPP_take hs) (by simp [pppFree_cons_not_startsPPP hl])

/-- Every part produced by `splitNl` on a `+++`-free text is `+++`-free. -/
theorem splitNl_pppFree : ∀ {l : Str}, pppFree l = true →
    ∀ p ∈ splitNl l, pppFree p = true
  | [], _, p, hp => by
    simp only [splitNl, List.mem_singleton] at hp
    subst hp; rfl
  | c :: t, hl, p, hp => by
    by_cases hc : c = '\n'
    · simp only [splitNl, hc, if_pos, List.mem_cons] at hp
      rcases hp with rfl | hp
      · rfl
      · exact splitNl_pppFree (pppFree_tail hl) p hp
    · obtain ⟨h, r, hsp, hpre⟩ := splitNl_head_prefix t
      simp only [splitNl, hc, if_false, hsp, List.mem_cons] at hp
      rcases hp with rfl | hp
      · have hh : pppFree h = true :=
          splitNl_pppFree (pppFree_tail hl) h (by rw [hsp]; exact List.mem_cons_self _ _)
        refine pppFree_cons_of_prefix hl hpre hh
      · exact splitNl_pppFree (pppFree_tail hl)
          p (by rw [hsp]; exact List.mem_cons_of_mem _ hp)

theorem parseDT_valid {s : Str} {d : DateTime} (h : parseDT s = some d) :
    ValidDT d := by
  unfold parseDT at h
  obtain ⟨p1, _, h⟩ := Option.bind_eq_some.mp h
  obtain ⟨s2, _, h⟩ := Option.bind_eq_some.mp h
  obtain ⟨p2, _, h⟩ := Option.bind_eq_some.mp h
  obtain ⟨s3, _, h⟩ := Option.bind_eq_some.mp h
  obtain ⟨p3, _, h⟩ := Option.bind_eq_some.mp h
  obtain ⟨s4, _, h⟩ := Option.bind_eq_some.mp h
  obtain ⟨p4, _, h⟩ := Option.bind_eq_some.mp h
  obtain ⟨s5, _, h⟩ := Option.bind_eq_some.mp h
  obtain ⟨p5, _, h⟩ := Option.bind_eq_some.mp h
  obtain ⟨s6, _, h⟩ := Option.bind_eq_some.mp h
  obtain ⟨p6, _, h⟩ := Option.bind_eq_some.mp h
  obtain ⟨p7, _, h⟩ := Option.bind_eq_some.mp h
  split_ifs at h with h1 h2
  cases h
  exact h2

theorem expectChar_eq_some {c : Char} {s r : Str} (h : expectChar c s = some r) :
    s = c :: r := by
  match s with
  | [] => simp [expectChar] at h
  | x :: t =>
    unfold expectChar at h
    dsimp only at h
    by_cases hx : x = c
    · rw [if_pos hx] at h
      cases h
      rw [hx]
    · rw [if_neg hx] at h
      exact absurd h (by simp)

/-- What a successfully parsed line guarantees about its value. -/
def ValOK : TomlVal → Prop
  | .str s => pppFree s = true
  | .dt d => ValidDT d

/-- A parsed line of a `+++`-free line yields a `+++`-free string value or
a range-valid datetime. -/
theorem parseLine_val_ok {sl k : Str} {v : TomlVal}
    (h : parseLine sl = some (k, v)) (hf : pppFree sl = true) : ValOK v := by
  unfold parseLine at h
  by_cases hk : (sl.takeWhile isBareKeyChar).isEmpty
  · rw [if_pos hk] at h; exact absurd h (by simp)
  · rw [if_neg hk] at h
    cases hE : expectChar '=' ((sl.dropWhile isBareKeyChar).dropWhile isSp) with
    | none => rw [hE] at h; exact absurd h (by simp)
    | some r3 =>
      rw [hE] at h
      dsimp only at h
      have hr3 : pppFree r3 = true := by
        have hsuf : ('=' :: r3) <:+ sl := by
          rw [← expectChar_eq_some hE]
          exact List.IsSuffix.trans (List.dropWhile_suffix _) (List.dropWhile_suffix _)
        exact pppFree_tail (pppFree_suffix hf hsuf)
      by_cases hq : (r3.dropWhile isSp).head? = some '"'
      · rw [if_pos hq] at h
        cases hsc : scanStr (r3.dropWhile isSp).tail with
        | none => rw [hsc] at h; exact absurd h (by simp)
        | some p =>
          rw [hsc] at h
          dsimp only at h
          have hr5 : pppFree (r3.dropWhile isSp).tail = true := by
            have h1 : pppFree (r3.dropWhile isSp) = true :=
              pppFree_suffix hr3 (List.dropWhile_suffix _)
            match hr4 : r3.dropWhile isSp with
            | [] => simp [pppFree]
            | c :: t => exact pppFree_tail (hr4 ▸ h1)
          split_ifs at h
          simp only [Option.some.injEq, Prod.mk.injEq] at h
          rw [← h.2]
          show ValOK (.str p.1)
          exact (scanStr_pppFree _ p.1 p.2 (by rw [hsc]) hr5).1
      · rw [if_neg hq] at h
        cases hdt : parseDT (rstripWs (r3.dropWhile isSp)) with
        | none => rw [hdt] at h; exact absurd h (by simp)
        | some d =>
          rw [hdt] at h
          dsimp only at h
          simp only [Option.some.injEq, Prod.mk.injEq] at h
          rw [← h.2]
          show ValOK (.dt d)
          exact parseDT_valid (by rw [hdt])

/-- Invariant of a parsed header document: string values are `+++`-free,
datetime values are range-valid. -/
def KvsOK (kvs : List (Str × TomlVal)) : Prop := ∀ kv ∈ kvs, ValOK kv.2

theorem parseTomlAux_ok : ∀ {ls : List Str} {acc kvs : List (Str × TomlVal)},
    (∀ l ∈ ls, pppFree l = true) → KvsOK acc →
    parseTomlAux ls acc = some kvs → KvsOK kvs
  | [], acc, kvs, _, hacc, h => by
    rw [parseTomlAux] at h
    cases h
    exact hacc
  | l :: ls, acc, kvs, hls, hacc, h => by
    have hl : pppFree l = true := hls l (List.mem_cons_self _ _)
    have hls' : ∀ x ∈ ls, pppFree x = true :=
      fun x hx => hls x (List.mem_cons_of_mem _ hx)
    rw [parseTomlAux] at h
    by_cases h1 : (stripWs l).isEmpty
    · rw [if_pos h1] at h
      exact parseTomlAux_ok hls' hacc h
    · rw [if_neg h1] at h
      by_cases h2 : (stripWs l).head? = some '#'
      · rw [if_pos h2] at h
        exact parseTomlAux_ok hls' hacc h
      · rw [if_neg h2] at h
        cases hpl : parseLine (stripWs l) with
        | none => rw [hpl] at h; exact absurd h (by simp)
        | some kv =>
          obtain ⟨k, v⟩ := kv
          rw [hpl] at h
          dsimp only at h
          by_cases h3 : (List.lookup k acc).isSome
          · rw [if_pos h3] at h; exact absurd h (by simp)
          · rw [if_neg h3] at h
            have hnew : KvsOK (acc ++ [(k, v)]) := by
              intro kv hkv
              rcases List.mem_append.mp hkv with hkv | hkv
              · exact hacc kv hkv
              · rcases List.mem_singleton.mp hkv with rfl
                exact parseLine_val_ok hpl
                  (pppFree_within hl (stripWs_within l))
            exact parseTomlAux_ok hls' hnew h

theorem parseToml_ok {g : Str} {kvs : List (Str × TomlVal)}
    (h : parseToml g = some kvs) (hg : pppFree g = true) : KvsOK kvs :=
  parseTomlAux_ok (fun l hl => splitNl_pppFree hg l hl)
    (fun _ hkv => absurd hkv (List.not_mem_nil _)) h

theorem asStr_eq_some {v : TomlVal} {s : Str} (h : asStr v = some s) :
    v = .str s := by
  cases v with
  | str s' => cases h; rfl
  | dt d => exact absurd h (by simp [asStr])

/-- What validation guarantees about the fields of a built `TaskMeta`. -/
theorem buildMeta_ok {kvs : List (Str × TomlVal)} {now : DateTime}
    {tm : TaskMeta} (h : buildMeta kvs now = some tm) (hk : KvsOK kvs)
    (hnow : ValidDT now) :
    pppFree tm.id = true ∧ pppFree tm.title = true ∧ pppFree tm.status = true ∧
    pppFree tm.dependencies = true ∧ ValidDT tm.last_updated := by
  unfold buildMeta at h
  obtain ⟨i, hi, h⟩ := Option.bind_eq_some.mp h
  obtain ⟨ti, hti, h⟩ := Option.bind_eq_some.mp h
  obtain ⟨st, hst, h⟩ := Option.bind_eq_some.mp h
  obtain ⟨dep, hdep, h⟩ := Option.bind_eq_some.mp h
  obtain ⟨lu, hlu, h⟩ := Option.bind_eq_some.mp h
  cases h
  obtain ⟨vi, hvi, hasi⟩ := Option.bind_eq_some.mp hi
  obtain ⟨vt, hvt, hast⟩ := Option.bind_eq_some.mp hti
  obtain ⟨vs, hvs, hass⟩ := Option.bind_eq_some.mp hst
  have hid : pppFree i = true := by
    have := hk _ (lookup_mem hvi)
    rw [asStr_eq_some hasi] at this
    exact this
  have htitle : pppFree ti = true := by
    have := hk _ (lookup_mem hvt)
    rw [asStr_eq_some hast] at this
    exact this
  have hstatus : pppFree st = true := by
    have := hk _ (lookup_mem hvs)
    rw [asStr_eq_some hass] at this
    exact this
  have hdeps : pppFree dep = true := by
    cases hld : List.lookup kDeps kvs with
    | none => rw [hld] at hdep; cases hdep; rfl
    | some v =>
      rw [hld] at hdep
      have := hk _ (lookup_mem hld)
      rw [asStr_eq_some hdep] at this
      exact this
  have hlast : ValidDT lu := by
    cases hld : List.lookup kLastUpdated kvs with
    | none => rw [hld] at hlu; cases hlu; exact hnow
    | some v =>
      rw [hld] at hlu
      cases v with
      | str s => exact parseDT_valid hlu
      | dt d =>
        cases hlu
        exact hk _ (lookup_mem hld)
  exact ⟨hid, htitle, hstatus, hdeps, hlast⟩

/-- Everything a successful `load_task` guarantees about the returned
metadata, assuming the ambient clock is a valid timestamp. -/
theorem loadTask_fields {text : Str} {now : DateTime} {tm : TaskMeta}
    {body : Str} (h : loadTask text now = .ok (tm, body)) (hnow : ValidDT now) :
    pppFree tm.id = true ∧ pppFree tm.title = true ∧ pppFree tm.status = true ∧
    pppFree tm.dependencies = true ∧ ValidDT tm.last_updated := by
  unfold loadTask at h
  cases hff : findFence text with
  | none => rw [hff] at h; exact absurd h (by simp)
  | some gr =>
    obtain ⟨g, rest⟩ := gr
    rw [hff] at h
    dsimp only at h
    cases hpt : parseToml g with
    | none => rw [hpt] at h; exact absurd h (by simp)
    | some kvs =>
      rw [hpt] at h
      dsimp only at h
      cases hbm : buildMeta kvs now with
      | none => rw [hbm] at h; exact absurd h (by simp)
      | some tm' =>
        rw [hbm] at h
        dsimp only at h
        have : tm' = tm := by
          cases h; rfl
        subst this
        exact buildMeta_ok hbm
          (parseToml_ok hpt (findFence_header_pppFree hff)) hnow

/-! ### Printing and reparsing the header -/

theorem unesc_ne_newline {e u : Char} (h : unesc e = some u) : e ≠ '\n' := by
  intro he
  subst he
  simp [unesc] at h

theorem escChar_plain_ne_newline {c : Char} (h : escChar c = [c]) : c ≠ '\n' := by
  intro hc
  rw [hc] at h
  simp [escChar] at h

theorem encStr_no_newline : ∀ {v : Str}, '\n' ∉ encStr v
  | [], h => by simp [encStr] at h
  | c :: t, h => by
    rw [encStr] at h
    rcases List.mem_append.mp h with h | h
    · rcases escChar_spec c with ⟨e, he, hu, _⟩ | ⟨he, _, _⟩
      · rw [he] at h
        rcases List.mem_cons.mp h with h | h
        · exact absurd h (by decide)
        · rcases List.mem_singleton.mp h with h
          exact unesc_ne_newline hu h.symm
      · rw [he] at h
        rcases List.mem_singleton.mp h with h
        exact escChar_plain_ne_newline he h.symm
    · exact encStr_no_newline h

theorem renderLine_no_newline {k v : Str} (hk : '\n' ∉ k) :
    '\n' ∉ renderLine k v := by
  intro h
  unfold renderLine at h
  rcases List.mem_append.mp h with h | h
  · exact hk h
  · rcases List.mem_cons.mp h with h | h
    · exact absurd h (by decide)
    rcases List.mem_cons.mp h with h | h
    · exact absurd h (by decide)
    rcases List.mem_cons.mp h with h | h
    · exact absurd h (by decide)
    rcases List.mem_cons.mp h with h | h
    · exact absurd h (by decide)
    rcases List.mem_append.mp h with h | h
    · exact encStr_no_newline h
    · rcases List.mem_singleton.mp h with h
      exact absurd h (by decide)

theorem splitNl_no_newline : ∀ {a : Str}, '\n' ∉ a → splitNl a = [a]
  | [], _ => rfl
  | c :: a', h => by
    have hc : ¬(c = '\n') := fun hh => h (hh ▸ List.mem_cons_self _ _)
    have ih := splitNl_no_newline (fun hh => h (List.mem_cons_of_mem _ hh))
    simp only [splitNl, hc, if_false, ih]

theorem splitNl_append_newline : ∀ {a b : Str}, '\n' ∉ a →
    splitNl (a ++ '\n' :: b) = a :: splitNl b
  | [], b, _ => by simp [splitNl]
  | c :: a', b, h => by
    have hc : ¬(c = '\n') := fun hh => h (hh ▸ List.mem_cons_self _ _)
    have ih := @splitNl_append_newline a' b
      (fun hh => h (List.mem_cons_of_mem _ hh))
    simp only [List.cons_append, splitNl, hc, if_false]
    rw [show List.append a' ('\n' :: b) = a' ++ '\n' :: b from rfl, ih]

theorem renderLine_getLast {k v : Str} :
    (renderLine k v).getLast? = some '"' := by
  unfold renderLine
  rw [getLast?_append_right (by simp)]
  rw [show ' ' :: '=' :: ' ' :: '"' :: (encStr v ++ ['"'])
      = (' ' :: '=' :: ' ' :: '"' :: encStr v) ++ ['"'] from by simp]
  rw [getLast?_append_right (by simp)]
  rfl

theorem bare_not_ws {c : Char} (h : isBareKeyChar c = true) : isWs c = false := by
  cases hw : isWs c with
  | false => rfl
  | true =>
    exfalso
    simp only [isWs, Bool.or_eq_true, decide_eq_true_eq] at hw
    rcases hw with ((((rfl | rfl) | rfl) | rfl) | rfl) | rfl <;>
      simp [isBareKeyChar] at h

theorem bare_ne_hash {c : Char} (h : isBareKeyChar c = true) : c ≠ '#' := by
  intro hc
  subst hc
  simp [isBareKeyChar] at h

theorem bare_ne_plus {c : Char} (h : isBareKeyChar c = true) : c ≠ '+' := by
  intro hc
  subst hc
  simp [isBareKeyChar] at h

/-- A rendered line strips to itself. -/
theorem stripWs_renderLine (k : Str) {v : Str} (hne : k ≠ [])
    (hb : ∀ c ∈ k, isBareKeyChar c = true) :
    stripWs (renderLine k v) = renderLine k v := by
  match k, hne, hb with
  | c0 :: kt, _, hb =>
    unfold stripWs
    have hlast : ∀ c, (renderLine (c0 :: kt) v).getLast? = some c → isWs c = false := by
      intro c hc
      rw [renderLine_getLast] at hc
      cases hc
      decide
    rw [rstripWs_eq_self hlast]
    apply lstripWs_eq_self
    intro c hc
    simp only [renderLine, List.cons_append, List.head?] at hc
    cases hc
    exact bare_not_ws (hb c0 (List.mem_cons_self _ _))

/-- Reparsing a rendered `key = "value"` line recovers the pair. -/
theorem parseLine_renderLine (k : Str) {v : Str} (hk1 : k ≠ [])
    (hk2 : ∀ c ∈ k, isBareKeyChar c = true) :
    parseLine (renderLine k v) = some (k, .str v) := by
  unfold parseLine renderLine
  have hrest : ∀ c : Char,
      (' ' :: '=' :: ' ' :: '"' :: (encStr v ++ ['"'])).head? = some c →
      isBareKeyChar c = false := by
    intro c hc
    cases hc
    decide
  rw [takeWhile_append_left hk2 hrest, dropWhile_append_left hk2 hrest]
  rw [if_neg (fun hh => hk1 (List.isEmpty_iff.mp hh))]
  rw [show (' ' :: '=' :: ' ' :: '"' :: (encStr v ++ ['"'])).dropWhile isSp
      = '=' :: ' ' :: '"' :: (encStr v ++ ['"']) from rfl]
  rw [show expectChar '=' ('=' :: ' ' :: '"' :: (encStr v ++ ['"']))
      = some (' ' :: '"' :: (encStr v ++ ['"'])) from rfl]
  dsimp only
  rw [show (' ' :: '"' :: (encStr v ++ ['"'])).dropWhile isSp
      = '"' :: (encStr v ++ ['"']) from rfl]
  rw [if_pos (show ('"' :: (encStr v ++ ['"'])).head? = some '"' from rfl)]
  rw [show ('"' :: (encStr v ++ ['"'])).tail = encStr v ++ '"' :: [] from rfl]
  rw [scanStr_encStr v []]
  rfl

/-- The canonical association list the header of a saved record parses to. -/
def metaKvs (tm : TaskMeta) : List (Str × TomlVal) :=
  [(kId, .str tm.id), (kTitle, .str tm.title), (kStatus, .str tm.status),
   (kDeps, .str tm.dependencies), (kLastUpdated, .str (isoDT tm.last_updated))]

theorem splitNl_dumpsMeta (tm : TaskMeta) :
    splitNl (dumpsMeta tm) =
      [renderLine kId tm.id, renderLine kTitle tm.title,
       renderLine kStatus tm.status, renderLine kDeps tm.dependencies,
       renderLine kLastUpdated (isoDT tm.last_updated)] := by
  unfold dumpsMeta
  rw [splitNl_append_newline (renderLine_no_newline (by decide)),
    splitNl_append_newline (renderLine_no_newline (by decide)),
    splitNl_append_newline (renderLine_no_newline (by decide)),
    splitNl_append_newline (renderLine_no_newline (by decide)),
    splitNl_no_newline (renderLine_no_newline (by decide))]

/-- Reparsing a dumped header recovers exactly the five fields. -/
theorem parseToml_dumpsMeta (tm : TaskMeta) :
    parseToml (dumpsMeta tm) = some (metaKvs tm) := by
  unfold parseToml
  rw [splitNl_dumpsMeta]
  rw [parseTomlAux]
  rw [stripWs_renderLine kId (by decide) (by decide)]
  rw [if_neg (by simp [renderLine, List.isEmpty_iff])]
  rw [if_neg (by rw [show (renderLine kId tm.id).head? = some 'i' from rfl]; decide)]
  rw [parseLine_renderLine kId (by decide) (by decide)]
  dsimp only [List.nil_append, List.cons_append]
  rw [show List.lookup kId ([] : List (Str × TomlVal)) = none from rfl]
  rw [if_neg (by decide)]
  rw [parseTomlAux]
  rw [stripWs_renderLine kTitle (by decide) (by decide)]
  rw [if_neg (by simp [renderLine, List.isEmpty_iff])]
  rw [if_neg (by rw [show (renderLine kTitle tm.title).head? = some 't' from rfl]; decide)]
  rw [parseLine_renderLine kTitle (by decide) (by decide)]
  dsimp only [List.nil_append, List.cons_append]
  rw [show List.lookup kTitle [(kId, TomlVal.str tm.id)] = none from rfl]
  rw [if_neg (by decide)]
  rw [parseTomlAux]
  rw [stripWs_renderLine kStatus (by decide) (by decide)]
  rw [if_neg (by simp [renderLine, List.isEmpty_iff])]
  rw [if_neg (by rw [show (renderLine kStatus tm.status).head? = some 's' from rfl]; decide)]
  rw [parseLine_renderLine kStatus (by decide) (by decide)]
  dsimp only [List.nil_append, List.cons_append]
  rw [show List.lookup kStatus
      [(kId, TomlVal.str tm.id), (kTitle, TomlVal.str tm.title)] = none from rfl]
  rw [if_neg (by decide)]
  rw [parseTomlAux]
  rw [stripWs_renderLine kDeps (by decide) (by decide)]
  rw [if_neg (by simp [renderLine, List.isEmpty_iff])]
  rw [if_neg (by rw [show (renderLine kDeps tm.dependencies).head? = some 'd' from rfl]; decide)]
  rw [parseLine_renderLine kDeps (by decide) (by decide)]
  dsimp only [List.nil_append, List.cons_append]
  rw [show List.lookup kDeps
      [(kId, TomlVal.str tm.id), (kTitle, TomlVal.str tm.title),
       (kStatus, TomlVal.str tm.status)] = none from rfl]
  rw [if_neg (by decide)]
  rw [parseTomlAux]
  rw [stripWs_renderLine kLastUpdated (by decide) (by decide)]
  rw [if_neg (by simp [renderLine, List.isEmpty_iff])]
  rw [if_neg (by rw [show (renderLine kLastUpdated (isoDT tm.last_updated)).head?
      = some 'l' from rfl]; decide)]
  rw [parseLine_renderLine kLastUpdated (by decide) (by decide)]
  dsimp only [List.nil_append, List.cons_append]
  rw [show List.lookup kLastUpdated
      [(kId, TomlVal.str tm.id), (kTitle, TomlVal.str tm.title),
       (kStatus, TomlVal.str tm.status), (kDeps, TomlVal.str tm.dependencies)]
      = none from rfl]
  rw [if_neg (by decide)]
  rw [parseTomlAux]
  rfl

/-- Validating the reparsed header rebuilds the identical `TaskMeta`. -/
theorem buildMeta_metaKvs (tm : TaskMeta) (now' : DateTime)
    (hval : ValidDT tm.last_updated) :
    buildMeta (metaKvs tm) now' = some tm := by
  unfold buildMeta metaKvs
  rw [show List.lookup kId
      [(kId, TomlVal.str tm.id), (kTitle, TomlVal.str tm.title),
       (kStatus, TomlVal.str tm.status), (kDeps, TomlVal.str tm.dependencies),
       (kLastUpdated, TomlVal.str (isoDT tm.last_updated))]
      = some (TomlVal.str tm.id) from rfl]
  rw [show List.lookup kTitle
      [(kId, TomlVal.str tm.id), (kTitle, TomlVal.str tm.title),
       (kStatus, TomlVal.str tm.status), (kDeps, TomlVal.str tm.dependencies),
       (kLastUpdated, TomlVal.str (isoDT tm.last_updated))]
      = some (TomlVal.str tm.title) from rfl]
  rw [show List.lookup kStatus
      [(kId, TomlVal.str tm.id), (kTitle, TomlVal.str tm.title),
       (kStatus, TomlVal.str tm.status), (kDeps, TomlVal.str tm.dependencies),
       (kLastUpdated, TomlVal.str (isoDT tm.last_updated))]
      = some (TomlVal.str tm.status) from rfl]
  rw [show List.lookup kDeps
      [(kId, TomlVal.str tm.id), (kTitle, TomlVal.str tm.title),
       (kStatus, TomlVal.str tm.status), (kDeps, TomlVal.str tm.dependencies),
       (kLastUpdated, TomlVal.str (isoDT tm.last_updated))]
      = some (TomlVal.str tm.dependencies) from rfl]
  rw [show List.lookup kLastUpdated
      [(kId, TomlVal.str tm.id), (kTitle, TomlVal.str tm.title),
       (kStatus, TomlVal.str tm.status), (kDeps, TomlVal.str tm.dependencies),
       (kLastUpdated, TomlVal.str (isoDT tm.last_updated))]
      = some (TomlVal.str (isoDT tm.last_updated)) from rfl]
  dsimp only [asStr, Option.some_bind]
  rw [parseDT_isoDT hval]
  rfl

theorem pppFree_renderLine {k v : Str} (hk : ∀ c ∈ k, isBareKeyChar c = true)
    (hv : pppFree v = true) : pppFree (renderLine k v) = true := by
  unfold renderLine
  apply pppFree_append
  · exact pppFree_of_no_plus fun c hc => bare_ne_plus (hk c hc)
  · apply pppFree_cons_ne_plus (by decide)
    apply pppFree_cons_ne_plus (by decide)
    apply pppFree_cons_ne_plus (by decide)
    apply pppFree_cons_ne_plus (by decide)
    exact pppFree_append_head (encStr_pppFree hv) (by decide) (by decide)
  · cases hl : k.getLast? with
    | none => simp
    | some c =>
      obtain ⟨h0, hceq⟩ := List.mem_getLast?_eq_getLast (show c ∈ k.getLast? from hl)
      have hc : c ∈ k := hceq ▸ List.getLast_mem h0
      intro hh
      have hcp : c = '+' := by injection hh
      exact bare_ne_plus (hk c hc) hcp

theorem renderLine_ne_nil {k v : Str} : renderLine k v ≠ [] := by
  unfold renderLine
  intro h
  have := congrArg List.length h
  simp [List.length_append] at this

/-- The dumped header of a record whose string fields are `+++`-free is
`+++`-free. -/
theorem pppFree_dumpsMeta {tm : TaskMeta} (h1 : pppFree tm.id = true)
    (h2 : pppFree tm.title = true) (h3 : pppFree tm.status = true)
    (h4 : pppFree tm.dependencies = true) :
    pppFree (dumpsMeta tm) = true := by
  have hiso : pppFree (isoDT tm.last_updated) = true := by
    apply pppFree_of_no_plus
    intro c hc
    rcases isoDT_chars _ c hc with h | h | h | h | h
    · intro hp; rw [hp] at h; exact absurd h (by decide)
    all_goals (rw [h]; decide)
  unfold dumpsMeta
  have step : ∀ (k v : Str), (∀ c ∈ k, isBareKeyChar c = true) →
      pppFree v = true → ∀ rest : Str, pppFree rest = true →
      pppFree (renderLine k v ++ ('\n' :: rest)) = true := by
    intro k v hk hv rest hrest
    apply pppFree_append (pppFree_renderLine hk hv)
    · exact pppFree_cons_ne_plus (by decide) hrest
    · rw [renderLine_getLast]
      decide
  apply step kId tm.id (by decide) h1
  apply step kTitle tm.title (by decide) h2
  apply step kStatus tm.status (by decide) h3
  apply step kDeps tm.dependencies (by decide) h4
  exact pppFree_renderLine (by decide) hiso

theorem getLast?_cons_ne_nil {c : Char} {l : Str} (h : l ≠ []) :
    (c :: l).getLast? = l.getLast? := by
  match l, h with
  | x :: t, _ => rw [List.getLast?_cons_cons]

theorem dumpsMeta_getLast (tm : TaskMeta) :
    (dumpsMeta tm).getLast? = some '"' := by
  unfold dumpsMeta
  rw [getLast?_append_right (by simp), getLast?_cons_ne_nil
    (fun h => renderLine_ne_nil (List.append_eq_nil.mp h).1)]
  rw [getLast?_append_right (by simp), getLast?_cons_ne_nil
    (fun h => renderLine_ne_nil (List.append_eq_nil.mp h).1)]
  rw [getLast?_append_right (by simp), getLast?_cons_ne_nil
    (fun h => renderLine_ne_nil (List.append_eq_nil.mp h).1)]
  rw [getLast?_append_right (by simp), getLast?_cons_ne_nil renderLine_ne_nil]
  exact renderLine_getLast

theorem dumpsMeta_head (tm : TaskMeta) : (dumpsMeta tm).head? = some 'i' := rfl

/-- Where `FRONTMATTER_RE` matches on the content `save_task` writes. -/
theorem findFence_saveContent (tm : TaskMeta) (body : Str)
    (hppp : pppFree (dumpsMeta tm) = true) :
    findFence (saveContent tm body)
      = some (dumpsMeta tm, '\n' :: '\n' :: lstripWs body) := by
  have hlastd : (dumpsMeta tm).getLast? ≠ some '+' := by
    rw [dumpsMeta_getLast]; decide
  have hp : pppFree ('\n' :: (dumpsMeta tm ++ ['\n'])) = true := by
    apply pppFree_cons_ne_plus (by decide)
    exact pppFree_append hppp (by decide) hlastd
  have hplast : ('\n' :: (dumpsMeta tm ++ ['\n'])).getLast? ≠ some '+' := by
    rw [getLast?_cons_ne_nil (by simp), getLast?_append_right (by simp)]
    decide
  unfold findFence saveContent
  rw [if_pos (show startsPPP ('+' :: '+' :: '+' :: '\n' ::
    (dumpsMeta tm ++ ('\n' :: '+' :: '+' :: '+' :: '\n' :: '\n' :: lstripWs body)))
    = true from rfl)]
  rw [show ('+' :: '+' :: '+' :: '\n' ::
    (dumpsMeta tm ++ ('\n' :: '+' :: '+' :: '+' :: '\n' :: '\n' :: lstripWs body)) : Str).drop 3
    = '\n' :: (dumpsMeta tm ++ ('\n' :: '+' :: '+' :: '+' :: '\n' :: '\n' :: lstripWs body))
    from rfl]
  rw [show '\n' :: (dumpsMeta tm ++ ('\n' :: '+' :: '+' :: '+' :: '\n' :: '\n' :: lstripWs body))
    = ('\n' :: (dumpsMeta tm ++ ['\n'])) ++ ('+' :: '+' :: '+' :: '\n' :: '\n' :: lstripWs body)
    from by simp]
  rw [firstPPP_append ('\n' :: (dumpsMeta tm ++ ['\n'])) hp hplast
    ('\n' :: '\n' :: lstripWs body)]
  dsimp only
  rw [List.take_left]
  rw [show (('\n' :: (dumpsMeta tm ++ ['\n'])) ++
      ('+' :: '+' :: '+' :: '\n' :: '\n' :: lstripWs body)).drop
      (('\n' :: (dumpsMeta tm ++ ['\n'])).length + 3)
    = ((('\n' :: (dumpsMeta tm ++ ['\n'])) ++ ['+', '+', '+']) ++
      ('\n' :: '\n' :: lstripWs body)).drop
      ((('\n' :: (dumpsMeta tm ++ ['\n'])) ++ ['+', '+', '+']).length)
    from by simp]
  rw [List.drop_left]
  rw [stripWs_sandwich
    (fun c hc => by rw [dumpsMeta_head] at hc; cases hc; decide)
    (fun c hc => by rw [dumpsMeta_getLast] at hc; cases hc; decide)
    (by decide) (by decide)]

/-- Re-loading what `save_task` wrote: field values are recovered exactly,
the body comes back with its leading whitespace stripped. -/
theorem loadTask_saveContent {tm : TaskMeta} (body : Str) (now' : DateTime)
    (h1 : pppFree tm.id = true) (h2 : pppFree tm.title = true)
    (h3 : pppFree tm.status = true) (h4 : pppFree tm.dependencies = true)
    (h5 : ValidDT tm.last_updated) :
    loadTask (saveContent tm body) now' = .ok (tm, lstripWs body) := by
  have hppp := pppFree_dumpsMeta h1 h2 h3 h4
  unfold loadTask
  rw [findFence_saveContent tm body hppp]
  dsimp only
  rw [parseToml_dumpsMeta]
  dsimp only
  rw [buildMeta_metaKvs tm now' h5]
  dsimp only
  rw [show lstripNl ('\n' :: '\n' :: lstripWs body) = lstripNl (lstripWs body) from by
    simp [lstripNl, List.dropWhile_cons]]
  rw [lstripNl_eq_self (lstripWs_head_ok body)]

/-! ### The dependency graph of `status` (`agentydragon_task.py`) -/

/-- One step of the `re.findall(r"\d+")` scan, processed right to left:
the state is (current digit run at this position, completed runs after). -/
def drStep (c : Char) (st : Str × List Str) : Str × List Str :=
  if c.isDigit then (c :: st.1, st.2)
  else ([], if st.1.isEmpty then st.2 else st.1 :: st.2)

/-- `re.findall(r"\d+", l)`: the maximal digit runs of `l`, in order. -/
def digitRuns (l : Str) : List Str :=
  let st := l.foldr drStep ([], [])
  if st.1.isEmpty then st.2 else st.1 :: st.2

/-- A loaded task record: its metadata and its file name (used for the
fallback ordering). -/
structure Rec where
  meta : TaskMeta
  filename : Str
deriving DecidableEq, Repr

/-- Insert into a Python dict keyed by `meta.id`: an existing key keeps its
position and gets the new value, a new key is appended. -/
def upsert (m : List Rec) (r : Rec) : List Rec :=
  match m with
  | [] => [r]
  | x :: t => if x.meta.id = r.meta.id then r :: t else x :: upsert t r

/-- `all_meta` / `path_map` after the load loop (both dicts are updated
together, so one id-keyed dict of records models them). -/
def buildAllMeta (recs : List Rec) : List Rec :=
  recs.foldl upsert []

def metaKeys (recs : List Rec) : List Str :=
  (buildAllMeta recs).map (fun r => r.meta.id)

def findRec (recs : List Rec) (tid : Str) : Option Rec :=
  (buildAllMeta recs).find? (fun r => r.meta.id = tid)

def sMerged : Str := ['M', 'e', 'r', 'g', 'e', 'd']

/-- `merged_ids`: ids of loaded records whose status is `Merged`, computed
over the whole record set. -/
def mergedIds (recs : List Rec) : List Str :=
  ((buildAllMeta recs).filter (fun r => r.meta.status = sMerged)).map
    (fun r => r.meta.id)

/-- The `deps_map` built by `status`: numeric tokens of the dependencies
field, kept only when they are known ids and not merged. -/
def statusDeps (recs : List Rec) (tid : Str) : List Str :=
  match findRec recs tid with
  | none => []
  | some r =>
    (digitRuns r.meta.dependencies).filter
      (fun d => (metaKeys recs).contains d && !((mergedIds recs).contains d))

/-- State of the topological sort in `status`: the output list (`sorted_ids`,
whose membership is exactly the `perm` set) and the recursion set `temp`. -/
structure TState where
  sorted : List Str
  temp : List Str
deriving DecidableEq, Repr

/-- Result of `visit`: normal return, the `RuntimeError` on a circular
dependency, or exhausted fuel (never reached with sufficient fuel). -/
inductive TRes where
  | ok (st : TState)
  | cycleAt (n : Str)
  | fuelOut
deriving DecidableEq, Repr

mutual

/-- The recursive `visit` of `status`'s topological sort. Fuel only models
the call depth; it is decremented on every call and a sufficient amount is
supplied (and proved sufficient) by the callers. -/
def visitT (g : Str → List Str) : Nat → Str → TState → TRes
  | 0, _, _ => .fuelOut
  | fuel + 1, n, st =>
    if n ∈ st.sorted then .ok st
    else if n ∈ st.temp then .cycleAt n
    else
      match visitTList g fuel (g n) ⟨st.sorted, st.temp ++ [n]⟩ with
      | .ok st' => .ok ⟨st'.sorted ++ [n], st'.temp.erase n⟩
      | e => e
termination_by structural fuel _ _ => fuel

/-- `for m in deps_map.get(n, []): visit(m)`. -/
def visitTList (g : Str → List Str) : Nat → List Str → TState → TRes
  | _, [], st => .ok st
  | 0, _ :: _, _ => .fuelOut
  | fuel + 1, m :: ms, st =>
    match visitT g fuel m st with
    | .ok st' => visitTList g fuel ms st'
    | e => e
termination_by structural fuel _ _ => fuel

end

/-- Fuel that provably suffices for the whole traversal over node
universe `U`. -/
def tFuel (g : Str → List Str) (U : List Str) : Nat :=
  (U.map (fun u => 1 + (g u).length)).sum + U.length + 1

/-- `for n in all_meta: visit(n)` with fuel that is provably sufficient. -/
def statusTopo (recs : List Rec) : TRes :=
  visitTList (statusDeps recs) (tFuel (statusDeps recs) (metaKeys recs))
    (metaKeys recs) ⟨[], []⟩

/-- Byte-wise `≤` on Python strings. -/
def strLe : Str → Str → Bool
  | [], _ => true
  | _ :: _, [] => false
  | a :: as, b :: bs =>
    if a.toNat < b.toNat then true
    else if b.toNat < a.toNat then false
    else strLe as bs

/-- Strictly smaller file name. -/
def fnLt (a b : Rec) : Bool := strLe a.filename b.filename && !strLe b.filename a.filename

/-- Stable insertion into a list sorted by file name. -/
def insertFn (x : Rec) : List Rec → List Rec
  | [] => [x]
  | y :: t => if fnLt y x then y :: insertFn x t else x :: y :: t

/-- Stable sort by file name (Python's `sorted` with a filename key). -/
def sortByFilename (l : List Rec) : List Rec := l.foldr insertFn []

/-- The fallback: ids in record order sorted by file name
(`sorted(all_meta.values(), key=lambda m: path_map[m.id].name)`). -/
def fallbackOrder (recs : List Rec) : List Str :=
  (sortByFilename (buildAllMeta recs)).map (fun r => r.meta.id)

/-- The id order `status` displays: the topological sort, or on any
exception the filename order. -/
def statusOrder (recs : List Rec) : List Str :=
  match statusTopo recs with
  | .ok st => st.sorted
  | _ => fallbackOrder recs

/-! ### Cycle detection (`check_tasks.py` `check_cycles`) -/

/-- Dict upsert for `deps_map[id] = deps`. -/
def upsertKV : List (Str × List Str) → Str → List Str → List (Str × List Str)
  | [], k, v => [(k, v)]
  | (k0, v0) :: t, k, v =>
    if k0 = k then (k, v) :: t else (k0, v0) :: upsertKV t k v

/-- One record of `check_cycles`'s load loop: merged ids accumulate, and a
non-merged record's numeric dependency tokens are filtered against the
merged ids *collected so far*. -/
def ccStep (acc : List Str × List (Str × List Str)) (r : Rec) :
    List Str × List (Str × List Str) :=
  if r.meta.status = sMerged then (acc.1 ++ [r.meta.id], acc.2)
  else
    (acc.1, upsertKV acc.2 r.meta.id
      ((digitRuns r.meta.dependencies).filter (fun d => !acc.1.contains d)))

/-- `merged` and `deps_map` after `check_cycles`'s load loop, in file
iteration order. -/
def ccLoad (recs : List Rec) : List Str × List (Str × List Str) :=
  recs.foldl ccStep ([], [])

/-- Lookup in an association-list graph, `deps_map.get(n, [])`. -/
def gOf (G : List (Str × List Str)) (n : Str) : List Str :=
  match G.find? (fun kv => kv.1 = n) with
  | some kv => kv.2
  | none => []

/-- The active dependencies `check_cycles` records for a task. -/
def ccDeps (recs : List Rec) (n : Str) : List Str := gOf (ccLoad recs).2 n

/-- State of `check_cycles`'s DFS: finished nodes (in finish order), the
recursion stack, and all reported cycles. -/
structure CState where
  visited : List Str
  stack : List Str
  failures : List (List Str)
deriving DecidableEq, Repr

mutual

/-- The recursive `visit` of `check_cycles`: on meeting a node already on
the stack it records `stack[stack.index(n):] + [n]` as a cycle and keeps
going; it never stops at the first cycle. -/
def visitC (g : Str → List Str) : Nat → Str → CState → Option CState
  | 0, _, _ => none
  | fuel + 1, n, st =>
    if n ∈ st.stack then
      some ⟨st.visited, st.stack,
        st.failures ++ [st.stack.drop (st.stack.indexOf n) ++ [n]]⟩
    else if n ∈ st.visited then some st
    else
      match visitCList g fuel (g n) ⟨st.visited, st.stack ++ [n], st.failures⟩ with
      | some st' => some ⟨st'.visited ++ [n], st'.stack.dropLast, st'.failures⟩
      | none => none
termination_by structural fuel _ _ => fuel

def visitCList (g : Str → List Str) : Nat → List Str → CState → Option CState
  | _, [], st => some st
  | 0, _ :: _, _ => none
  | fuel + 1, m :: ms, st =>
    match visitC g fuel m st with
    | some st' => visitCList g fuel ms st'
    | none => none
termination_by structural fuel _ _ => fuel

end

/-- The node universe of an association-list graph: its keys and every
dependency target. -/
def gUniv (G : List (Str × List Str)) : List Str :=
  (G.map (fun kv => kv.1) ++ (G.map (fun kv => kv.2)).join).dedup

/-- `check_cycles`'s traversal over a dependency map: visit every key,
collect every reported cycle. -/
def checkCycles (G : List (Str × List Str)) : List (List Str) :=
  match visitCList (gOf G) (tFuel (gOf G) (gUniv G)) (G.map (fun kv => kv.1))
      ⟨[], [], []⟩ with
  | some st => st.failures
  | none => []

/-- The whole `check_cycles` pipeline on a loaded record set. -/
def checkCyclesRecs (recs : List Rec) : List (List Str) :=
  checkCycles (ccLoad recs).2

/-! ### The pre-commit hook (`check_task_cycles.py`), which exits at the
first cycle -/

structure HState where
  visited : List Str
  stack : List Str
deriving DecidableEq, Repr

inductive HRes where
  | ok (st : HState)
  | cycle (c : List Str)
  | fuelOut
deriving DecidableEq, Repr

mutual

/-- The hook's `visit`: printing the cycle and `sys.exit(1)` is modelled as
an aborting result carrying the one reported cycle. -/
def visitH (g : Str → List Str) : Nat → Str → HState → HRes
  | 0, _, _ => .fuelOut
  | fuel + 1, n, st =>
    if n ∈ st.stack then
      .cycle (st.stack.drop (st.stack.indexOf n) ++ [n])
    else if n ∈ st.visited then .ok st
    else
      match visitHList g fuel (g n) ⟨st.visited, st.stack ++ [n]⟩ with
      | .ok st' => .ok ⟨st'.visited ++ [n], st'.stack.dropLast⟩
      | e => e
termination_by structural fuel _ _ => fuel

def visitHList (g : Str → List Str) : Nat → List Str → HState → HRes
  | _, [], st => .ok st
  | 0, _ :: _, _ => .fuelOut
  | fuel + 1, m :: ms, st =>
    match visitH g fuel m st with
    | .ok st' => visitHList g fuel ms st'
    | e => e
termination_by structural fuel _ _ => fuel

end

/-- The hook's top loop: `for node in deps_map: if node not in visited:
visit(node)`; stops at the first reported cycle. -/
def hookRun (G : List (Str × List Str)) : HRes :=
  visitHList (gOf G) (tFuel (gOf G) (gUniv G)) (G.map (fun kv => kv.1)) ⟨[], []⟩

/-! ### Correctness of the topological sort -/

/-- First index of `a` in `l` (the length of `l` when absent). -/
def idxOf (l : List Str) (a : Str) : Nat :=
  match l with
  | [] => 0
  | c :: t => if c = a then 0 else idxOf t a + 1

theorem idxOf_lt_length {l : List Str} {a : Str} (h : a ∈ l) :
    idxOf l a < l.length := by
  induction l with
  | nil => simp at h
  | cons c t ih =>
    by_cases hc : c = a
    · simp [idxOf, hc]
    · rcases List.mem_cons.mp h with rfl | h
      · exact absurd rfl hc
      · simp only [idxOf, hc, if_false, List.length_cons]
        exact Nat.succ_lt_succ (ih h)

theorem idxOf_append_of_mem {l1 : List Str} (l2 : List Str) {a : Str}
    (h : a ∈ l1) : idxOf (l1 ++ l2) a = idxOf l1 a := by
  induction l1 with
  | nil => simp at h
  | cons c t ih =>
    by_cases hc : c = a
    · simp [idxOf, hc]
    · rcases List.mem_cons.mp h with rfl | h
      · exact absurd rfl hc
      · simp only [List.cons_append, idxOf, hc, if_false, List.append_eq, ih h]

theorem idxOf_append_of_not_mem {l1 : List Str} (l2 : List Str) {a : Str}
    (h : a ∉ l1) : idxOf (l1 ++ l2) a = l1.length + idxOf l2 a := by
  induction l1 with
  | nil => simp [idxOf]
  | cons c t ih =>
    have hc : ¬(c = a) := fun hh => h (hh ▸ List.mem_cons_self _ _)
    simp only [List.cons_append, idxOf, hc, if_false, List.length_cons,
      List.append_eq, ih (fun hh => h (List.mem_cons_of_mem _ hh))]
    omega

theorem idxOf_self_cons {a : Str} (t : List Str) : idxOf (a :: t) a = 0 := by
  simp [idxOf]

/-- `d` occurs strictly before `x` in `l`. -/
def Before (l : List Str) (d x : Str) : Prop :=
  d ∈ l ∧ x ∈ l ∧ idxOf l d < idxOf l x

/-- Every listed node's dependencies occur before it. -/
def GoodL (g : Str → List Str) (l : List Str) : Prop :=
  ∀ x ∈ l, ∀ d ∈ g x, Before l d x

/-- Invariant of the output list during the traversal. -/
def TInv (g : Str → List Str) (K : List Str) (st : TState) : Prop :=
  st.sorted.Nodup ∧ GoodL g st.sorted ∧ ∀ x ∈ st.sorted, x ∈ K

theorem nodup_append_singleton {l : List Str} {n : Str} (hl : l.Nodup)
    (hn : n ∉ l) : (l ++ [n]).Nodup :=
  (List.perm_append_singleton n l).nodup_iff.mpr (hl.cons hn)

theorem before_append {l : List Str} {d x y : Str} (h : Before l d x) :
    Before (l ++ [y]) d x :=
  ⟨List.mem_append_left _ h.1, List.mem_append_left _ h.2.1, by
    rw [idxOf_append_of_mem _ h.1, idxOf_append_of_mem _ h.2.1]
    exact h.2.2⟩

theorem goodL_append {g : Str → List Str} {l : List Str} {n : Str}
    (hG : GoodL g l) (hn : ∀ d ∈ g n, d ∈ l) (hnm : n ∉ l) :
    GoodL g (l ++ [n]) := by
  intro x hx d hd
  rcases List.mem_append.mp hx with hx | hx
  · exact before_append (hG x hx d hd)
  · rcases List.mem_singleton.mp hx with rfl
    have hdl := hn d hd
    refine ⟨List.mem_append_left _ hdl, List.mem_append_right _ (by simp), ?_⟩
    rw [idxOf_append_of_mem _ hdl, idxOf_append_of_not_mem _ hnm]
    have h1 : idxOf l d < l.length := idxOf_lt_length hdl
    simp only [idxOf_self_cons]
    omega

/-- The joint invariant-preservation specification of `visit` and its
dependency loop: whatever a successful traversal returns extends the output
topologically consistently, never touches `temp`, and puts the visited
node(s) in the output. -/
theorem visit_spec (g : Str → List Str) (K : List Str)
    (hg : ∀ x m, m ∈ g x → m ∈ K) : ∀ fuel : Nat,
    (∀ n st st', visitT g fuel n st = .ok st' → TInv g K st → n ∈ K →
      st'.temp = st.temp ∧ TInv g K st' ∧ n ∈ st'.sorted ∧
      (∀ x ∈ st.sorted, x ∈ st'.sorted) ∧
      (∀ x ∈ st'.sorted, x ∉ st.sorted → x ∉ st.temp)) ∧
    (∀ ms st st', visitTList g fuel ms st = .ok st' → TInv g K st →
      (∀ m ∈ ms, m ∈ K) →
      st'.temp = st.temp ∧ TInv g K st' ∧ (∀ m ∈ ms, m ∈ st'.sorted) ∧
      (∀ x ∈ st.sorted, x ∈ st'.sorted) ∧
      (∀ x ∈ st'.sorted, x ∉ st.sorted → x ∉ st.temp)) := by
  intro fuel
  induction fuel with
  | zero =>
    constructor
    · intro n st st' h
      simp [visitT] at h
    · intro ms st st' h hinv _
      match ms, h with
      | [], h =>
        cases h
        exact ⟨rfl, hinv, by simp, fun x hx => hx, fun x hm hnm _ => absurd hm hnm⟩
      | _ :: _, h => simp [visitTList] at h
  | succ fuel ih =>
    constructor
    · intro n st st' h hinv hnK
      rw [visitT] at h
      by_cases h1 : n ∈ st.sorted
      · rw [if_pos h1] at h
        cases h
        exact ⟨rfl, hinv, h1, fun x hx => hx, fun x hm hnm _ => absurd hm hnm⟩
      · rw [if_neg h1] at h
        by_cases h2 : n ∈ st.temp
        · rw [if_pos h2] at h
          exact absurd h (by simp)
        · rw [if_neg h2] at h
          cases hcl : visitTList g fuel (g n) ⟨st.sorted, st.temp ++ [n]⟩ with
          | cycleAt m => rw [hcl] at h; exact absurd h (by simp)
          | fuelOut => rw [hcl] at h; exact absurd h (by simp)
          | ok st'' =>
            rw [hcl] at h
            dsimp only at h
            cases h
            obtain ⟨htemp, hinv'', hdeps, hmono, hnew⟩ :=
              ih.2 (g n) ⟨st.sorted, st.temp ++ [n]⟩ st'' hcl hinv
                (fun m hm => hg n m hm)
            have hnns : n ∉ st''.sorted := by
              intro hn
              have := hnew n hn h1
              exact this (List.mem_append_right _ (by simp))
            refine ⟨?_, ⟨?_, ?_, ?_⟩, ?_, ?_, ?_⟩
            · show (st''.temp).erase n = st.temp
              rw [htemp, List.erase_append_right _ h2]
              simp
            · exact nodup_append_singleton hinv''.1 hnns
            · exact goodL_append hinv''.2.1 hdeps hnns
            · intro x hx
              rcases List.mem_append.mp hx with hx | hx
              · exact hinv''.2.2 x hx
              · rcases List.mem_singleton.mp hx with rfl
                exact hnK
            · exact List.mem_append_right _ (by simp)
            · intro x hx
              exact List.mem_append_left _ (hmono x hx)
            · intro x hx hxs
              rcases List.mem_append.mp hx with hx | hx
              · intro hxt
                exact hnew x hx hxs (List.mem_append_left _ hxt)
              · rcases List.mem_singleton.mp hx with rfl
                exact h2
    · intro ms st st' h hinv hmsK
      match ms, h, hmsK with
      | [], h, _ =>
        cases h
        exact ⟨rfl, hinv, by simp, fun x hx => hx, fun x hm hnm _ => absurd hm hnm⟩
      | m :: ms, h, hmsK =>
        rw [visitTList] at h
        cases hv : visitT g fuel m st with
        | cycleAt x => rw [hv] at h; exact absurd h (by simp)
        | fuelOut => rw [hv] at h; exact absurd h (by simp)
        | ok st1 =>
          rw [hv] at h
          dsimp only at h
          obtain ⟨ht1, hinv1, hm1, hmono1, hnew1⟩ :=
            ih.1 m st st1 hv hinv (hmsK m (List.mem_cons_self _ _))
          obtain ⟨ht2, hinv2, hms2, hmono2, hnew2⟩ :=
            ih.2 ms st1 st' h hinv1 (fun x hx => hmsK x (List.mem_cons_of_mem _ hx))
          refine ⟨by rw [ht2, ht1], hinv2, ?_, ?_, ?_⟩
          · intro x hx
            rcases List.mem_cons.mp hx with rfl | hx
            · exact hmono2 x hm1
            · exact hms2 x hx
          · exact fun x hx => hmono2 x (hmono1 x hx)
          · intro x hx hxs
            by_cases hx1 : x ∈ st1.sorted
            · exact hnew1 x hx1 hxs
            · have := hnew2 x hx hx1
              rw [ht1] at this
              exact this

/-- `visit` leaves the recursion set exactly as it found it. -/
theorem visit_temp (g : Str → List Str) : ∀ fuel : Nat,
    (∀ n st st', visitT g fuel n st = .ok st' → st'.temp = st.temp) ∧
    (∀ ms st st', visitTList g fuel ms st = .ok st' → st'.temp = st.temp) := by
  intro fuel
  induction fuel with
  | zero =>
    constructor
    · intro n st st' h; simp [visitT] at h
    · intro ms st st' h
      match ms, h with
      | [], h => cases h; rfl
      | _ :: _, h => simp [visitTList] at h
  | succ fuel ih =>
    constructor
    · intro n st st' h
      rw [visitT] at h
      by_cases h1 : n ∈ st.sorted
      · rw [if_pos h1] at h; cases h; rfl
      · rw [if_neg h1] at h
        by_cases h2 : n ∈ st.temp
        · rw [if_pos h2] at h; exact absurd h (by simp)
        · rw [if_neg h2] at h
          cases hcl : visitTList g fuel (g n) ⟨st.sorted, st.temp ++ [n]⟩ with
          | cycleAt m => rw [hcl] at h; exact absurd h (by simp)
          | fuelOut => rw [hcl] at h; exact absurd h (by simp)
          | ok st'' =>
            rw [hcl] at h
            dsimp only at h
            cases h
            have := ih.2 (g n) ⟨st.sorted, st.temp ++ [n]⟩ st'' hcl
            show st''.temp.erase n = st.temp
            rw [this, List.erase_append_right _ h2]
            simp
    · intro ms st st' h
      match ms, h with
      | [], h => cases h; rfl
      | m :: ms, h =>
        rw [visitTList] at h
        cases hv : visitT g fuel m st with
        | cycleAt x => rw [hv] at h; exact absurd h (by simp)
        | fuelOut => rw [hv] at h; exact absurd h (by simp)
        | ok st1 =>
          rw [hv] at h
          dsimp only at h
          rw [ih.2 ms st1 st' h, ih.1 m st st1 hv]

/-! ### Record-set key facts and the C9 permutation -/

theorem mem_upsert_ids {m : List Rec} {r : Rec} {a : Str}
    (h : a ∈ (upsert m r).map (fun x => x.meta.id)) :
    a ∈ m.map (fun x => x.meta.id) ∨ a = r.meta.id := by
  induction m with
  | nil => simpa [upsert] using h
  | cons x t ih =>
    rw [upsert] at h
    by_cases hx : x.meta.id = r.meta.id
    · rw [if_pos hx] at h
      rcases List.mem_cons.mp h with h | h
      · exact Or.inr h
      · exact Or.inl (List.mem_cons_of_mem _ h)
    · rw [if_neg hx] at h
      rcases List.mem_cons.mp h with h | h
      · exact Or.inl (by simp [h])
      · rcases ih h with h | h
        · exact Or.inl (List.mem_cons_of_mem _ h)
        · exact Or.inr h

theorem upsert_ids_nodup {m : List Rec} {r : Rec}
    (h : (m.map (fun x => x.meta.id)).Nodup) :
    ((upsert m r).map (fun x => x.meta.id)).Nodup := by
  induction m with
  | nil => simp [upsert]
  | cons x t ih =>
    rw [upsert]
    rw [List.map_cons, List.nodup_cons] at h
    by_cases hx : x.meta.id = r.meta.id
    · rw [if_pos hx]
      rw [List.map_cons, List.nodup_cons]
      exact ⟨hx ▸ h.1, h.2⟩
    · rw [if_neg hx]
      rw [List.map_cons, List.nodup_cons]
      refine ⟨?_, ih h.2⟩
      intro hmem
      rcases mem_upsert_ids hmem with hmem | hmem
      · exact h.1 hmem
      · exact hx hmem

theorem metaKeys_nodup (recs : List Rec) : (metaKeys recs).Nodup := by
  unfold metaKeys buildAllMeta
  suffices h : ∀ (l : List Rec) (acc : List Rec),
      ((acc.map (fun x => x.meta.id)).Nodup) →
      ((l.foldl upsert acc).map (fun x => x.meta.id)).Nodup by
    exact h recs [] (by simp)
  intro l
  induction l with
  | nil => intro acc h; simpa using h
  | cons r t ih =>
    intro acc h
    rw [List.foldl_cons]
    exact ih _ (upsert_ids_nodup h)

theorem insertFn_perm (x : Rec) : ∀ l : List Rec, (insertFn x l).Perm (x :: l)
  | [] => List.Perm.refl _
  | y :: t => by
    rw [insertFn]
    by_cases hf : fnLt y x
    · rw [if_pos hf]
      exact ((insertFn_perm x t).cons y).trans (List.Perm.swap x y t)
    · rw [if_neg hf]

theorem sortByFilename_perm : ∀ l : List Rec, (sortByFilename l).Perm l
  | [] => List.Perm.refl _
  | x :: t => by
    show (insertFn x (sortByFilename t)).Perm (x :: t)
    exact (insertFn_perm x _).trans ((sortByFilename_perm t).cons x)

theorem fallbackOrder_perm (recs : List Rec) :
    (fallbackOrder recs).Perm (metaKeys recs) := by
  unfold fallbackOrder metaKeys
  exact (sortByFilename_perm _).map _

/-- The `status` dependency map only references known ids. -/
theorem statusDeps_closed (recs : List Rec) :
    ∀ n m, m ∈ statusDeps recs n → m ∈ metaKeys recs := by
  intro n m hm
  unfold statusDeps at hm
  cases hf : findRec recs n with
  | none => rw [hf] at hm; simp at hm
  | some r =>
    rw [hf] at hm
    dsimp only at hm
    have := (List.mem_filter.mp hm).2
    simp only [Bool.and_eq_true] at this
    exact List.mem_of_elem_eq_true this.1

theorem statusTopo_ok_perm {recs : List Rec} {st : TState}
    (h : statusTopo recs = .ok st) : st.sorted.Perm (metaKeys recs) := by
  unfold statusTopo at h
  have hinv0 : TInv (statusDeps recs) (metaKeys recs) ⟨[], []⟩ :=
    ⟨List.nodup_nil, fun x hx => absurd hx (List.not_mem_nil x),
     fun x hx => absurd hx (List.not_mem_nil x)⟩
  obtain ⟨htemp, hinv, hall, hmono, hnew⟩ :=
    (visit_spec (statusDeps recs) (metaKeys recs) (statusDeps_closed recs) _).2
      (metaKeys recs) ⟨[], []⟩ st h hinv0 (fun m hm => hm)
  exact (hinv.1.subperm hinv.2.2).antisymm
    ((metaKeys_nodup recs).subperm hall)

/-! ### Sufficient fuel and acyclicity -/

/-- Remaining work: total size of the not-yet-stacked part of the node
universe. -/
def Wpot (g : Str → List Str) (U : List Str) (temp : List Str) : Nat :=
  ((U.filter (fun u => decide (u ∉ temp))).map (fun u => 1 + (g u).length)).sum

theorem wpot_split {g : Str → List Str} {U temp : List Str} {n : Str}
    (hU : U.Nodup) (hn : n ∈ U) (hnt : n ∉ temp) :
    Wpot g U temp = 1 + (g n).length + Wpot g U (temp ++ [n]) := by
  unfold Wpot
  induction U with
  | nil => simp at hn
  | cons u U' ih =>
    rw [List.nodup_cons] at hU
    simp only [List.filter_cons]
    by_cases hu : u = n
    · subst hu
      have hd1 : (decide (u ∉ temp) : Bool) = true := by simpa using hnt
      have hd2 : (decide (u ∉ temp ++ [u]) : Bool) = false := by simp
      rw [hd1, hd2, if_pos rfl, if_neg (by simp)]
      have hfil : U'.filter (fun x => decide (x ∉ temp ++ [u]))
          = U'.filter (fun x => decide (x ∉ temp)) := by
        apply List.filter_congr
        intro x hx
        have hxu : x ≠ u := fun hh => hU.1 (hh ▸ hx)
        simp only [decide_eq_decide, List.mem_append, List.mem_singleton]
        tauto
      simp only [List.map_cons, List.sum_cons, hfil]
    · have hn' : n ∈ U' := by
        rcases List.mem_cons.mp hn with h | h
        · exact absurd h.symm hu
        · exact h
      have ihh := ih hU.2 hn'
      by_cases hut : u ∈ temp
      · have hd1 : (decide (u ∉ temp) : Bool) = false := by simpa using hut
        have hd2 : (decide (u ∉ temp ++ [n]) : Bool) = false := by
          simp [List.mem_append, hut]
        rw [hd1, hd2, if_neg (by simp), if_neg (by simp)]
        exact ihh
      · have hd1 : (decide (u ∉ temp) : Bool) = true := by simpa using hut
        have hd2 : (decide (u ∉ temp ++ [n]) : Bool) = true := by
          simp [List.mem_append, hut, hu]
        rw [hd1, hd2, if_pos rfl, if_pos rfl]
        simp only [List.map_cons, List.sum_cons]
        omega

/-- The dependency relation of a graph: `b` is a listed dependency of `a`. -/
def edgeRel (g : Str → List Str) (a b : Str) : Prop := b ∈ g a

/-- Chain invariant of the recursion stack: consecutive entries are edges. -/
def ChainInv (g : Str → List Str) (temp : List Str) : Prop :=
  List.Chain' (edgeRel g) temp

/-- The node about to be visited is a dependency of the stack top. -/
def PendOK (g : Str → List Str) (temp : List Str) (n : Str) : Prop :=
  ∀ x, temp.getLast? = some x → n ∈ g x

/-- Acyclicity via a rank function strictly decreasing along edges
(equivalent to the absence of cycles on these finite graphs). -/
def AcyclicRank (g : Str → List Str) : Prop :=
  ∃ rank : Str → Nat, ∀ a b, b ∈ g a → rank b < rank a

theorem chain_last_le {g : Str → List Str} {rank : Str → Nat}
    (hrank : ∀ a b, b ∈ g a → rank b < rank a) :
    ∀ {l : List Str}, ChainInv g l → ∀ x, l.getLast? = some x →
      ∀ b ∈ l, rank x ≤ rank b
  | [], _, x, hx, b, hb => by simp at hx
  | [a], _, x, hx, b, hb => by
    simp only [List.getLast?_singleton, Option.some.injEq] at hx
    rcases List.mem_singleton.mp hb with rfl
    rw [← hx]
  | a :: c :: t, hch, x, hx, b, hb => by
    rw [ChainInv, List.chain'_cons] at hch
    have hedge : rank c < rank a := hrank a c hch.1
    rw [List.getLast?_cons_cons] at hx
    have ih := chain_last_le hrank hch.2 x hx
    rcases List.mem_cons.mp hb with rfl | hb
    · exact le_trans (ih c (List.mem_cons_self _ _)) (le_of_lt hedge)
    · exact ih b hb

/-- With an acyclic graph the stack can never be re-entered. -/
theorem no_stack_reentry {g : Str → List Str} {rank : Str → Nat}
    (hrank : ∀ a b, b ∈ g a → rank b < rank a) {temp : List Str} {n : Str}
    (hch : ChainInv g temp) (hpend : PendOK g temp n) (hn : n ∈ temp) :
    False := by
  cases hx : temp.getLast? with
  | none =>
    rw [List.getLast?_eq_none_iff] at hx
    rw [hx] at hn
    exact absurd hn (List.not_mem_nil n)
  | some x =>
    have h1 : rank n < rank x := hrank x n (hpend x hx)
    have h2 : rank x ≤ rank n := chain_last_le hrank hch x hx n hn
    omega

/-- With sufficient fuel and an acyclic graph, `visit` always returns
normally. -/
theorem visit_total (g : Str → List Str) (U : List Str)
    (hgU : ∀ x m, m ∈ g x → m ∈ U) (hU : U.Nodup) (rank : Str → Nat)
    (hrank : ∀ a b, b ∈ g a → rank b < rank a) : ∀ fuel : Nat,
    (∀ n st, n ∈ U → (∀ x ∈ st.temp, x ∈ U) → st.temp.Nodup →
      ChainInv g st.temp → PendOK g st.temp n →
      Wpot g U st.temp + 1 ≤ fuel →
      ∃ st', visitT g fuel n st = .ok st') ∧
    (∀ ms st, (∀ m ∈ ms, m ∈ U) → (∀ x ∈ st.temp, x ∈ U) → st.temp.Nodup →
      ChainInv g st.temp → (∀ m ∈ ms, PendOK g st.temp m) →
      Wpot g U st.temp + ms.length + 1 ≤ fuel →
      ∃ st', visitTList g fuel ms st = .ok st') := by
  intro fuel
  induction fuel with
  | zero =>
    constructor
    · intro n st _ _ _ _ _ hf
      omega
    · intro ms st _ _ _ _ _ hf
      match ms, hf with
      | [], _ => exact ⟨st, rfl⟩
      | _ :: _, hf => simp only [List.length_cons] at hf; omega
  | succ fuel ih =>
    constructor
    · intro n st hnU htU htnd hch hpend hf
      by_cases h1 : n ∈ st.sorted
      · exact ⟨st, by rw [visitT, if_pos h1]⟩
      · by_cases h2 : n ∈ st.temp
        · exact absurd (no_stack_reentry hrank hch hpend h2) id
        · have hsplit := @wpot_split g U st.temp n hU hnU h2
          obtain ⟨st'', hcl⟩ := ih.2 (g n) ⟨st.sorted, st.temp ++ [n]⟩
            (fun m hm => hgU n m hm)
            (by
              intro x hx
              rcases List.mem_append.mp hx with hx | hx
              · exact htU x hx
              · rcases List.mem_singleton.mp hx with rfl; exact hnU)
            (nodup_append_singleton htnd h2)
            (by
              rw [ChainInv, List.chain'_append]
              refine ⟨hch, List.chain'_singleton n, ?_⟩
              intro x hx y hy
              simp only [List.head?_cons, Option.mem_def, Option.some.injEq] at hy
              subst hy
              exact hpend x hx)
            (by
              intro m hm x hx
              rw [List.getLast?_concat] at hx
              cases hx
              exact hm)
            (by
              show Wpot g U (st.temp ++ [n]) + (g n).length + 1 ≤ fuel
              omega)
          refine ⟨⟨st''.sorted ++ [n], st''.temp.erase n⟩, ?_⟩
          rw [visitT, if_neg h1, if_neg h2, hcl]
    · intro ms st hmsU htU htnd hch hpend hf
      match ms, hpend, hf with
      | [], _, _ => exact ⟨st, rfl⟩
      | m :: ms, hpend, hf =>
        simp only [List.length_cons] at hf
        obtain ⟨st1, hv1⟩ := ih.1 m st (hmsU m (List.mem_cons_self _ _)) htU htnd
          hch (hpend m (List.mem_cons_self _ _)) (by omega)
        have htempeq : st1.temp = st.temp := (visit_temp g fuel).1 m st st1 hv1
        obtain ⟨st2, hv2⟩ := ih.2 ms st1
          (fun x hx => hmsU x (List.mem_cons_of_mem _ hx))
          (by rw [htempeq]; exact htU) (by rw [htempeq]; exact htnd)
          (by rw [ChainInv, htempeq]; exact hch)
          (fun x hx => by rw [PendOK, htempeq]; exact hpend x (List.mem_cons_of_mem _ hx))
          (by rw [htempeq]; omega)
        refine ⟨st2, ?_⟩
        rw [visitTList, hv1]
        exact hv2

/-- An id without a loaded record contributes no dependency edges. -/
theorem findRec_eq_none_of_not_key {recs : List Rec} {tid : Str}
    (h : tid ∉ metaKeys recs) : findRec recs tid = none := by
  rw [findRec, List.find?_eq_none]
  intro r hr heq
  exact h (of_decide_eq_true heq ▸ List.mem_map_of_mem (fun r => r.meta.id) hr)

theorem statusDeps_nonkey {recs : List Rec} {tid : Str}
    (h : tid ∉ metaKeys recs) : statusDeps recs tid = [] := by
  rw [statusDeps, findRec_eq_none_of_not_key h]

/-- A rank decreasing on the (finitely checkable) edges out of known ids
witnesses acyclicity. -/
theorem acyclicRank_of_keys {recs : List Rec} (rank : Str → Nat)
    (h : ∀ a ∈ metaKeys recs, ∀ b ∈ statusDeps recs a, rank b < rank a) :
    AcyclicRank (statusDeps recs) := by
  refine ⟨rank, ?_⟩
  intro a b hb
  by_cases ha : a ∈ metaKeys recs
  · exact h a ha b hb
  · rw [statusDeps_nonkey ha] at hb
    exact absurd hb (List.not_mem_nil b)

/-- On an acyclic dependency graph the topological sort of `status`
returns normally (the fallback branch is not taken). -/
theorem statusTopo_total {recs : List Rec}
    (h : AcyclicRank (statusDeps recs)) : ∃ st, statusTopo recs = .ok st := by
  obtain ⟨rank, hrank⟩ := h
  obtain ⟨st', hst⟩ := (visit_total (statusDeps recs) (metaKeys recs)
    (statusDeps_closed recs) (metaKeys_nodup recs) rank hrank
    (tFuel (statusDeps recs) (metaKeys recs))).2 (metaKeys recs) ⟨[], []⟩
    (fun m hm => hm) (fun x hx => absurd hx (List.not_mem_nil x))
    List.nodup_nil List.chain'_nil
    (fun m _ x hx => by simp at hx)
    (by
      have hfil : (metaKeys recs).filter (fun u => decide (u ∉ ([] : List Str)))
          = metaKeys recs := List.filter_eq_self.mpr (fun a _ => by simp)
      rw [Wpot]
      show ((((metaKeys recs).filter
          (fun u => decide (u ∉ ([] : List Str)))).map
          (fun u => 1 + (statusDeps recs u).length)).sum) +
        (metaKeys recs).length + 1 ≤
        tFuel (statusDeps recs) (metaKeys recs)
      rw [hfil, tFuel])
  exact ⟨st', hst⟩

/-! ### Correctness of the cycle checkers -/

/-- A genuine cycle: at least two entries, closing on itself, with a
dependency edge between each consecutive pair. -/
def IsCycle (g : Str → List Str) (c : List Str) : Prop :=
  2 ≤ c.length ∧ c.head? = c.getLast? ∧ List.Chain' (edgeRel g) c

def HasCycle (g : Str → List Str) : Prop := ∃ c, IsCycle g c

theorem indexOf_cons_eq_zero {b a : Str} (l : List Str) (h : b = a) :
    (b :: l).indexOf a = 0 := by
  rw [List.indexOf_cons]
  simp [h]

theorem indexOf_cons_ne_succ {b a : Str} (l : List Str) (h : ¬b = a) :
    (b :: l).indexOf a = l.indexOf a + 1 := by
  rw [List.indexOf_cons, beq_eq_false_iff_ne.mpr h]
  rfl

/-- The slice `stack[stack.index(n):] + [n]` reported by both checkers is a
genuine cycle whenever the stack is a dependency chain with a pending edge
from its top to `n`. -/
theorem cycle_of_stack {g : Str → List Str} {n : Str} :
    ∀ {stack : List Str}, ChainInv g stack → n ∈ stack → PendOK g stack n →
      IsCycle g (stack.drop (stack.indexOf n) ++ [n])
  | [], _, hn, _ => absurd hn (List.not_mem_nil n)
  | c :: t, hch, hn, hpend => by
    by_cases hc : c = n
    · rw [indexOf_cons_eq_zero t hc, List.drop_zero]
      subst hc
      refine ⟨by simp, ?_, ?_⟩
      · rw [List.getLast?_concat]
        rfl
      · rw [List.chain'_append]
        refine ⟨hch, List.chain'_singleton c, ?_⟩
        intro x hx y hy
        simp only [List.head?_cons, Option.mem_def, Option.some.injEq] at hy
        subst hy
        exact hpend x hx
    · have hnt : n ∈ t := by
        rcases List.mem_cons.mp hn with rfl | h
        · exact absurd rfl hc
        · exact h
      match t, hnt, hch, hpend with
      | d :: t', hnt, hch, hpend =>
        rw [indexOf_cons_ne_succ _ hc, List.drop_succ_cons]
        have hch' : List.Chain' (edgeRel g) (c :: d :: t') := hch
        exact cycle_of_stack hch'.tail hnt
          (fun x hx => hpend x (by rw [List.getLast?_cons_cons]; exact hx))

/-- `check_cycles`'s `visit` restores the stack it was called with. -/
theorem visitc_stack (g : Str → List Str) : ∀ fuel : Nat,
    (∀ n st st', visitC g fuel n st = some st' → st'.stack = st.stack) ∧
    (∀ ms st st', visitCList g fuel ms st = some st' → st'.stack = st.stack) := by
  intro fuel
  induction fuel with
  | zero =>
    constructor
    · intro n st st' h; simp [visitC] at h
    · intro ms st st' h
      match ms, h with
      | [], h => cases h; rfl
      | _ :: _, h => simp [visitCList] at h
  | succ fuel ih =>
    constructor
    · intro n st st' h
      rw [visitC] at h
      by_cases h1 : n ∈ st.stack
      · rw [if_pos h1] at h; cases h; rfl
      · rw [if_neg h1] at h
        by_cases h2 : n ∈ st.visited
        · rw [if_pos h2] at h; cases h; rfl
        · rw [if_neg h2] at h
          cases hcl : visitCList g fuel (g n)
              ⟨st.visited, st.stack ++ [n], st.failures⟩ with
          | none => rw [hcl] at h; exact absurd h (by simp)
          | some st'' =>
            rw [hcl] at h
            dsimp only at h
            cases h
            show st''.stack.dropLast = st.stack
            rw [ih.2 (g n) _ st'' hcl]
            exact List.dropLast_concat
    · intro ms st st' h
      match ms, h with
      | [], h => cases h; rfl
      | m :: ms, h =>
        rw [visitCList] at h
        cases hv : visitC g fuel m st with
        | none => rw [hv] at h; exact absurd h (by simp)
        | some st1 =>
          rw [hv] at h
          dsimp only at h
          rw [ih.2 ms st1 st' h, ih.1 m st st1 hv]

/-- The joint specification of `check_cycles`'s `visit`: failures only ever
accumulate, each added failure is a genuine cycle, the visited list only
grows, and a failure-free traversal finishes its node(s) with all their
dependencies placed earlier in the visited (finish-order) list. -/
theorem visitC_spec (g : Str → List Str) : ∀ fuel : Nat,
    (∀ n st st', visitC g fuel n st = some st' →
      ChainInv g st.stack → PendOK g st.stack n →
      (∃ Δ, st'.failures = st.failures ++ Δ ∧ ∀ c ∈ Δ, IsCycle g c) ∧
      (∀ x ∈ st.visited, x ∈ st'.visited) ∧
      (st'.failures = st.failures →
        (GoodL g st.visited → GoodL g st'.visited) ∧ n ∈ st'.visited ∧
        (∀ x ∈ st'.visited, x ∉ st.visited → x ∉ st.stack))) ∧
    (∀ ms st st', visitCList g fuel ms st = some st' →
      ChainInv g st.stack → (∀ m ∈ ms, PendOK g st.stack m) →
      (∃ Δ, st'.failures = st.failures ++ Δ ∧ ∀ c ∈ Δ, IsCycle g c) ∧
      (∀ x ∈ st.visited, x ∈ st'.visited) ∧
      (st'.failures = st.failures →
        (GoodL g st.visited → GoodL g st'.visited) ∧
        (∀ m ∈ ms, m ∈ st'.visited) ∧
        (∀ x ∈ st'.visited, x ∉ st.visited → x ∉ st.stack))) := by
  intro fuel
  induction fuel with
  | zero =>
    constructor
    · intro n st st' h
      simp [visitC] at h
    · intro ms st st' h _ _
      match ms, h with
      | [], h =>
        cases h
        exact ⟨⟨[], by simp, by simp⟩, fun x hx => hx,
          fun _ => ⟨id, by simp, fun x hx hnm => absurd hx hnm⟩⟩
      | _ :: _, h => simp [visitCList] at h
  | succ fuel ih =>
    constructor
    · intro n st st' h hch hpend
      rw [visitC] at h
      by_cases h1 : n ∈ st.stack
      · rw [if_pos h1] at h
        cases h
        refine ⟨⟨[st.stack.drop (st.stack.indexOf n) ++ [n]], rfl, ?_⟩,
          fun x hx => hx, ?_⟩
        · intro c hc
          rcases List.mem_singleton.mp hc with rfl
          exact cycle_of_stack hch h1 hpend
        · intro hf
          exfalso
          have := congrArg List.length hf
          simp at this
      · rw [if_neg h1] at h
        by_cases h2 : n ∈ st.visited
        · rw [if_pos h2] at h
          cases h
          exact ⟨⟨[], by simp, by simp⟩, fun x hx => hx,
            fun _ => ⟨id, h2, fun x hx hnm => absurd hx hnm⟩⟩
        · rw [if_neg h2] at h
          cases hcl : visitCList g fuel (g n)
              ⟨st.visited, st.stack ++ [n], st.failures⟩ with
          | none => rw [hcl] at h; exact absurd h (by simp)
          | some st'' =>
            rw [hcl] at h
            dsimp only at h
            cases h
            have hch' : ChainInv g (st.stack ++ [n]) := by
              rw [ChainInv, List.chain'_append]
              refine ⟨hch, List.chain'_singleton n, ?_⟩
              intro x hx y hy
              simp only [List.head?_cons, Option.mem_def,
                Option.some.injEq] at hy
              subst hy
              exact hpend x hx
            have hpend' : ∀ m ∈ g n, PendOK g (st.stack ++ [n]) m := by
              intro m hm x hx
              rw [List.getLast?_concat] at hx
              cases hx
              exact hm
            obtain ⟨⟨Δ, hΔ, hΔcyc⟩, hvmono, hcond⟩ :=
              ih.2 (g n) ⟨st.visited, st.stack ++ [n], st.failures⟩ st'' hcl
                hch' hpend'
            refine ⟨⟨Δ, hΔ, hΔcyc⟩, ?_, ?_⟩
            · intro x hx
              exact List.mem_append_left _ (hvmono x hx)
            · intro hf
              obtain ⟨hgood, hdeps, hnew⟩ := hcond hf
              have hnns : n ∉ st''.visited := by
                intro hn
                exact hnew n hn h2 (List.mem_append_right _ (by simp))
              refine ⟨?_, List.mem_append_right _ (by simp), ?_⟩
              · intro hG
                exact goodL_append (hgood hG)
                  (fun d hd => hdeps d hd) hnns
              · intro x hx hxs
                rcases List.mem_append.mp hx with hx | hx
                · intro hxt
                  exact hnew x hx hxs (List.mem_append_left _ hxt)
                · rcases List.mem_singleton.mp hx with rfl
                  exact h1
    · intro ms st st' h hch hpend
      match ms, h, hpend with
      | [], h, _ =>
        cases h
        exact ⟨⟨[], by simp, by simp⟩, fun x hx => hx,
          fun _ => ⟨id, by simp, fun x hx hnm => absurd hx hnm⟩⟩
      | m :: ms, h, hpend =>
        rw [visitCList] at h
        cases hv : visitC g fuel m st with
        | none => rw [hv] at h; exact absurd h (by simp)
        | some st1 =>
          rw [hv] at h
          dsimp only at h
          have hstk1 : st1.stack = st.stack := (visitc_stack g fuel).1 m st st1 hv
          obtain ⟨⟨Δ1, hΔ1, hΔ1cyc⟩, hvmono1, hcond1⟩ :=
            ih.1 m st st1 hv hch (hpend m (List.mem_cons_self _ _))
          obtain ⟨⟨Δ2, hΔ2, hΔ2cyc⟩, hvmono2, hcond2⟩ :=
            ih.2 ms st1 st' h (by rw [ChainInv, hstk1]; exact hch)
              (fun x hx => by
                rw [PendOK, hstk1]
                exact hpend x (List.mem_cons_of_mem _ hx))
          refine ⟨⟨Δ1 ++ Δ2, ?_, ?_⟩, ?_, ?_⟩
          · rw [hΔ2, hΔ1, List.append_assoc]
          · intro c hc
            rcases List.mem_append.mp hc with hc | hc
            · exact hΔ1cyc c hc
            · exact hΔ2cyc c hc
          · exact fun x hx => hvmono2 x (hvmono1 x hx)
          · intro hf
            have hΔnil : Δ1 = [] ∧ Δ2 = [] := by
              rw [hΔ2, hΔ1, List.append_assoc] at hf
              have : Δ1 ++ Δ2 = [] := by
                have := congrArg List.length hf
                simp at this
                rcases this with ⟨ha, hb⟩
                rw [ha, hb]
                rfl
              exact List.append_eq_nil.mp this
            have hf1 : st1.failures = st.failures := by rw [hΔ1, hΔnil.1]; simp
            have hf2 : st'.failures = st1.failures := by
              rw [hΔ2, hΔnil.2]; simp
            obtain ⟨hgood1, hm1, hnew1⟩ := hcond1 hf1
            obtain ⟨hgood2, hms2, hnew2⟩ := hcond2 hf2
            refine ⟨fun hG => hgood2 (hgood1 hG), ?_, ?_⟩
            · intro x hx
              rcases List.mem_cons.mp hx with rfl | hx
              · exact hvmono2 x hm1
              · exact hms2 x hx
            · intro x hx hxs
              by_cases hx1 : x ∈ st1.visited
              · exact hnew1 x hx1 hxs
              · have := hnew2 x hx hx1
                rw [hstk1] at this
                exact this

/-- With the fuel `check_cycles` is given, its recursion always returns
(cyclic inputs included: a cycle is recorded, not recursed into). -/
theorem visitC_total (g : Str → List Str) (U : List Str)
    (hgU : ∀ x m, m ∈ g x → m ∈ U) (hU : U.Nodup) : ∀ fuel : Nat,
    (∀ n st, n ∈ U → (∀ x ∈ st.stack, x ∈ U) → st.stack.Nodup →
      Wpot g U st.stack + 1 ≤ fuel → ∃ st', visitC g fuel n st = some st') ∧
    (∀ ms st, (∀ m ∈ ms, m ∈ U) → (∀ x ∈ st.stack, x ∈ U) →
      st.stack.Nodup → Wpot g U st.stack + ms.length + 1 ≤ fuel →
      ∃ st', visitCList g fuel ms st = some st') := by
  intro fuel
  induction fuel with
  | zero =>
    constructor
    · intro n st _ _ _ hf
      omega
    · intro ms st _ _ _ hf
      match ms, hf with
      | [], _ => exact ⟨st, rfl⟩
      | _ :: _, hf => simp only [List.length_cons] at hf; omega
  | succ fuel ih =>
    constructor
    · intro n st hnU hsU hsnd hf
      by_cases h1 : n ∈ st.stack
      · exact ⟨_, by rw [visitC, if_pos h1]⟩
      · by_cases h2 : n ∈ st.visited
        · exact ⟨st, by rw [visitC, if_neg h1, if_pos h2]⟩
        · have hsplit := @wpot_split g U st.stack n hU hnU h1
          obtain ⟨st'', hcl⟩ := ih.2 (g n)
            ⟨st.visited, st.stack ++ [n], st.failures⟩
            (fun m hm => hgU n m hm)
            (by
              intro x hx
              rcases List.mem_append.mp hx with hx | hx
              · exact hsU x hx
              · rcases List.mem_singleton.mp hx with rfl; exact hnU)
            (nodup_append_singleton hsnd h1)
            (by
              show Wpot g U (st.stack ++ [n]) + (g n).length + 1 ≤ fuel
              omega)
          exact ⟨_, by rw [visitC, if_neg h1, if_neg h2, hcl]⟩
    · intro ms st hmsU hsU hsnd hf
      match ms, hf with
      | [], _ => exact ⟨st, rfl⟩
      | m :: ms, hf =>
        simp only [List.length_cons] at hf
        obtain ⟨st1, hv1⟩ := ih.1 m st (hmsU m (List.mem_cons_self _ _)) hsU
          hsnd (by omega)
        have hstk : st1.stack = st.stack := (visitc_stack g fuel).1 m st st1 hv1
        obtain ⟨st2, hv2⟩ := ih.2 ms st1
          (fun x hx => hmsU x (List.mem_cons_of_mem _ hx))
          (by rw [hstk]; exact hsU) (by rw [hstk]; exact hsnd)
          (by rw [hstk]; omega)
        refine ⟨st2, ?_⟩
        rw [visitCList, hv1]
        exact hv2

theorem gUniv_nodup (G : List (Str × List Str)) : (gUniv G).Nodup :=
  List.nodup_dedup _

theorem keys_subset_gUniv {G : List (Str × List Str)} {k : Str}
    (h : k ∈ G.map (fun kv => kv.1)) : k ∈ gUniv G :=
  List.mem_dedup.mpr (List.mem_append_left _ h)

/-- Every dependency edge lands inside the node universe. -/
theorem gOf_subset_gUniv (G : List (Str × List Str)) :
    ∀ x m, m ∈ gOf G x → m ∈ gUniv G := by
  intro x m hm
  rw [gOf] at hm
  cases hf : G.find? (fun kv => kv.1 = x) with
  | none => rw [hf] at hm; simp at hm
  | some kv =>
    rw [hf] at hm
    dsimp only at hm
    refine List.mem_dedup.mpr (List.mem_append_right _ ?_)
    exact List.mem_join.mpr ⟨kv.2,
      List.mem_map_of_mem (fun kv => kv.2) (List.mem_of_find?_eq_some hf), hm⟩

/-- Only keys of the dependency map have outgoing edges. -/
theorem mem_keys_of_gOf_ne {G : List (Str × List Str)} {a m : Str}
    (h : m ∈ gOf G a) : a ∈ G.map (fun kv => kv.1) := by
  rw [gOf] at h
  cases hf : G.find? (fun kv => kv.1 = a) with
  | none => rw [hf] at h; simp at h
  | some kv =>
    have hp' := List.find?_some hf
    have hp : kv.1 = a := of_decide_eq_true hp'
    exact hp ▸ List.mem_map_of_mem (fun kv => kv.1)
      (List.mem_of_find?_eq_some hf)

/-- A rank function strictly decreasing along edges rules out any cycle. -/
theorem no_cycle_of_rank {g : Str → List Str} {rank : Str → Nat}
    (hrank : ∀ a b, b ∈ g a → rank b < rank a) : ¬HasCycle g := by
  rintro ⟨c, hlen, hh, hch⟩
  match c, hlen, hh, hch with
  | h0 :: c2 :: t, _, hh, hch =>
    simp only [List.head?_cons, List.getLast?_cons_cons] at hh
    have hch' : List.Chain' (edgeRel g) (h0 :: c2 :: t) := hch
    rw [List.chain'_cons] at hch'
    have h1 : rank c2 < rank h0 := hrank h0 c2 hch'.1
    have h2 : rank h0 ≤ rank c2 :=
      chain_last_le hrank hch'.2 h0 hh.symm c2 (List.mem_cons_self _ _)
    omega

/-- Everything `check_cycles` reports is a genuine cycle. -/
theorem checkCycles_sound (G : List (Str × List Str)) :
    ∀ c ∈ checkCycles G, IsCycle (gOf G) c := by
  intro c hc
  rw [checkCycles] at hc
  cases hrun : visitCList (gOf G) (tFuel (gOf G) (gUniv G))
      (G.map (fun kv => kv.1)) ⟨[], [], []⟩ with
  | none => rw [hrun] at hc; simp at hc
  | some st =>
    rw [hrun] at hc
    dsimp only at hc
    obtain ⟨⟨Δ, hΔ, hcyc⟩, _, _⟩ :=
      (visitC_spec (gOf G) _).2 _ _ st hrun List.chain'_nil
        (fun m _ x hx => by simp at hx)
    rw [hΔ] at hc
    exact hcyc c (by simpa using hc)

/-- An empty `check_cycles` report means the graph really is acyclic. -/
theorem checkCycles_complete {G : List (Str × List Str)}
    (hK : (G.map (fun kv => kv.1)).Nodup) (h : checkCycles G = []) :
    ¬HasCycle (gOf G) := by
  obtain ⟨st, hrun⟩ := (visitC_total (gOf G) (gUniv G) (gOf_subset_gUniv G)
    (gUniv_nodup G) (tFuel (gOf G) (gUniv G))).2 (G.map (fun kv => kv.1))
    ⟨[], [], []⟩ (fun m hm => keys_subset_gUniv hm)
    (fun x hx => absurd hx (List.not_mem_nil x)) List.nodup_nil
    (by
      show Wpot (gOf G) (gUniv G) [] + (G.map (fun kv => kv.1)).length + 1 ≤
        tFuel (gOf G) (gUniv G)
      have hfil : (gUniv G).filter (fun u => decide (u ∉ ([] : List Str)))
          = gUniv G := List.filter_eq_self.mpr (fun a _ => by simp)
      rw [Wpot, hfil, tFuel]
      have hlen : (G.map (fun kv => kv.1)).length ≤ (gUniv G).length :=
        (hK.subperm (fun x hx => keys_subset_gUniv hx)).length_le
      omega)
  have hfail : st.failures = [] := by
    rw [checkCycles, hrun] at h
    exact h
  obtain ⟨_, _, hcond⟩ :=
    (visitC_spec (gOf G) _).2 _ _ st hrun List.chain'_nil
      (fun m _ x hx => by simp at hx)
  obtain ⟨hgood, hkeys, _⟩ := hcond hfail
  have hG : GoodL (gOf G) st.visited :=
    hgood (fun x hx => absurd hx (List.not_mem_nil x))
  refine @no_cycle_of_rank (gOf G) (fun s => idxOf st.visited s) ?_
  intro a b hb
  have ha : a ∈ st.visited := hkeys a (mem_keys_of_gOf_ne hb)
  exact (hG a ha b hb).2.2

theorem mem_upsertKV_keys {G : List (Str × List Str)} {k a : Str}
    {v : List Str}
    (h : a ∈ (upsertKV G k v).map (fun kv => kv.1)) :
    a ∈ G.map (fun kv => kv.1) ∨ a = k := by
  induction G with
  | nil => simpa [upsertKV] using h
  | cons kv0 t ih =>
    match kv0, h with
    | (k0, v0), h =>
      rw [upsertKV] at h
      by_cases hk : k0 = k
      · rw [if_pos hk] at h
        rcases List.mem_cons.mp h with h | h
        · exact Or.inr h
        · exact Or.inl (List.mem_cons_of_mem _ h)
      · rw [if_neg hk] at h
        rcases List.mem_cons.mp h with h | h
        · exact Or.inl (by simp [h])
        · rcases ih h with h | h
          · exact Or.inl (List.mem_cons_of_mem _ h)
          · exact Or.inr h

theorem upsertKV_keys_nodup {G : List (Str × List Str)} {k : Str}
    {v : List Str} (h : (G.map (fun kv => kv.1)).Nodup) :
    ((upsertKV G k v).map (fun kv => kv.1)).Nodup := by
  induction G with
  | nil => simp [upsertKV]
  | cons kv0 t ih =>
    match kv0, h with
    | (k0, v0), h =>
      rw [upsertKV]
      rw [List.map_cons, List.nodup_cons] at h
      by_cases hk : k0 = k
      · rw [if_pos hk]
        rw [List.map_cons, List.nodup_cons]
        exact ⟨hk ▸ h.1, h.2⟩
      · rw [if_neg hk]
        rw [List.map_cons, List.nodup_cons]
        refine ⟨?_, ih h.2⟩
        intro hmem
        rcases mem_upsertKV_keys hmem with hmem | hmem
        · exact h.1 hmem
        · exact hk hmem

/-- `check_cycles`'s dependency map has no duplicate keys. -/
theorem ccLoad_keys_nodup (recs : List Rec) :
    (((ccLoad recs).2).map (fun kv => kv.1)).Nodup := by
  rw [ccLoad]
  suffices h : ∀ (l : List Rec) (acc : List Str × List (Str × List Str)),
      ((acc.2).map (fun kv => kv.1)).Nodup →
      (((l.foldl ccStep acc).2).map (fun kv => kv.1)).Nodup by
    exact h recs ([], []) (by simp)
  intro l
  induction l with
  | nil => intro acc h; simpa using h
  | cons r t ih =>
    intro acc h
    rw [List.foldl_cons]
    refine ih _ ?_
    rw [ccStep]
    by_cases hm : r.meta.status = sMerged
    · rw [if_pos hm]; exact h
    · rw [if_neg hm]; exact upsertKV_keys_nodup h

/-- The hook's `visit` restores the stack on a normal return. -/
theorem visith_stack (g : Str → List Str) : ∀ fuel : Nat,
    (∀ n st st', visitH g fuel n st = .ok st' → st'.stack = st.stack) ∧
    (∀ ms st st', visitHList g fuel ms st = .ok st' → st'.stack = st.stack) := by
  intro fuel
  induction fuel with
  | zero =>
    constructor
    · intro n st st' h; simp [visitH] at h
    · intro ms st st' h
      match ms, h with
      | [], h => cases h; rfl
      | _ :: _, h => simp [visitHList] at h
  | succ fuel ih =>
    constructor
    · intro n st st' h
      rw [visitH] at h
      by_cases h1 : n ∈ st.stack
      · rw [if_pos h1] at h; exact absurd h (by simp)
      · rw [if_neg h1] at h
        by_cases h2 : n ∈ st.visited
        · rw [if_pos h2] at h; cases h; rfl
        · rw [if_neg h2] at h
          cases hcl : visitHList g fuel (g n) ⟨st.visited, st.stack ++ [n]⟩ with
          | cycle c => rw [hcl] at h; exact absurd h (by simp)
          | fuelOut => rw [hcl] at h; exact absurd h (by simp)
          | ok st'' =>
            rw [hcl] at h
            dsimp only at h
            cases h
            show st''.stack.dropLast = st.stack
            rw [ih.2 (g n) _ st'' hcl]
            exact List.dropLast_concat
    · intro ms st st' h
      match ms, h with
      | [], h => cases h; rfl
      | m :: ms, h =>
        rw [visitHList] at h
        cases hv : visitH g fuel m st with
        | cycle c => rw [hv] at h; exact absurd h (by simp)
        | fuelOut => rw [hv] at h; exact absurd h (by simp)
        | ok st1 =>
          rw [hv] at h
          dsimp only at h
          rw [ih.2 ms st1 st' h, ih.1 m st st1 hv]

/-- Any cycle the pre-commit hook aborts with is genuine. -/
theorem visitH_sound (g : Str → List Str) : ∀ fuel : Nat,
    (∀ n st c, visitH g fuel n st = .cycle c → ChainInv g st.stack →
      PendOK g st.stack n → IsCycle g c) ∧
    (∀ ms st c, visitHList g fuel ms st = .cycle c → ChainInv g st.stack →
      (∀ m ∈ ms, PendOK g st.stack m) → IsCycle g c) := by
  intro fuel
  induction fuel with
  | zero =>
    constructor
    · intro n st c h; simp [visitH] at h
    · intro ms st c h
      match ms, h with
      | [], h => simp [visitHList] at h
      | _ :: _, h => simp [visitHList] at h
  | succ fuel ih =>
    constructor
    · intro n st c h hch hpend
      rw [visitH] at h
      by_cases h1 : n ∈ st.stack
      · rw [if_pos h1] at h
        cases h
        exact cycle_of_stack hch h1 hpend
      · rw [if_neg h1] at h
        by_cases h2 : n ∈ st.visited
        · rw [if_pos h2] at h; exact absurd h (by simp)
        · rw [if_neg h2] at h
          have hch' : ChainInv g (st.stack ++ [n]) := by
            rw [ChainInv, List.chain'_append]
            refine ⟨hch, List.chain'_singleton n, ?_⟩
            intro x hx y hy
            simp only [List.head?_cons, Option.mem_def, Option.some.injEq] at hy
            subst hy
            exact hpend x hx
          have hpend' : ∀ m ∈ g n, PendOK g (st.stack ++ [n]) m := by
            intro m hm x hx
            rw [List.getLast?_concat] at hx
            cases hx
            exact hm
          cases hcl : visitHList g fuel (g n)
              ⟨st.visited, st.stack ++ [n]⟩ with
          | cycle c' =>
            rw [hcl] at h
            cases h
            exact ih.2 (g n) ⟨st.visited, st.stack ++ [n]⟩ c hcl hch' hpend'
          | fuelOut => rw [hcl] at h; exact absurd h (by simp)
          | ok st'' => rw [hcl] at h; exact absurd h (by simp)
    · intro ms st c h hch hpend
      match ms, h, hpend with
      | [], h, _ => simp [visitHList] at h
      | m :: ms, h, hpend =>
        rw [visitHList] at h
        cases hv : visitH g fuel m st with
        | cycle c' =>
          rw [hv] at h
          cases h
          exact ih.1 m st c hv hch (hpend m (List.mem_cons_self _ _))
        | fuelOut => rw [hv] at h; exact absurd h (by simp)
        | ok st1 =>
          rw [hv] at h
          dsimp only at h
          have hstk : st1.stack = st.stack := (visith_stack g fuel).1 m st st1 hv
          exact ih.2 ms st1 c h (by rw [ChainInv, hstk]; exact hch)
            (fun x hx => by
              rw [PendOK, hstk]
              exact hpend x (List.mem_cons_of_mem _ hx))

/-- Any cycle the hook reports on a dependency map is genuine. -/
theorem hookRun_sound {G : List (Str × List Str)} {c : List Str}
    (h : hookRun G = .cycle c) : IsCycle (gOf G) c := by
  rw [hookRun] at h
  exact (visitH_sound (gOf G) _).2 _ _ c h List.chain'_nil
    (fun m _ x hx => by simp at hx)

/-! ### The `set-status` and `set-deps` commands, and save atomicity -/

theorem lstripWs_idem (s : Str) : lstripWs (lstripWs s) = lstripWs s := by
  induction s with
  | nil => rfl
  | cons c t ih =>
    by_cases h : isWs c = true
    · rw [show lstripWs (c :: t) = lstripWs t from by
        rw [lstripWs, List.dropWhile_cons, if_pos h]; rfl]
      exact ih
    · rw [show lstripWs (c :: t) = c :: t from by
        rw [lstripWs, List.dropWhile_cons, if_neg h]]
      rw [lstripWs, List.dropWhile_cons, if_neg h]

/-- `set-status` on a record file's content: load, overwrite the status
field and the timestamp, save; the command performs no validation of the
new value and exits 0 whenever the load succeeded. -/
def setStatus (text : Str) (status : Str) (now : DateTime) : Option Str :=
  match loadTask text now with
  | .error _ => none
  | .ok (tm, body) =>
    some (saveContent ⟨tm.id, tm.title, status, tm.dependencies, now⟩ body)

/-- A file-system operation `save_task` could perform. -/
inductive FsOp where
  | writeTarget (content : Str)
  | writeTemp (content : Str)
  | renameTempToTarget
deriving DecidableEq, Repr

/-- The operations `save_task` actually performs: a single direct
`path.write_text(content)` on the record file. -/
def saveTaskTrace (tm : TaskMeta) (body : Str) : List FsOp :=
  [.writeTarget (saveContent tm body)]

/-- The spec's atomicity requirement: the record file is only ever replaced
wholesale by a rename, never written in place. -/
def AtomicTrace (t : List FsOp) : Prop :=
  ∀ op ∈ t, ∀ c, op ≠ FsOp.writeTarget c

/-- The on-disk content when a crash interrupts an operation after `k`
characters: an in-place write leaves a truncated file, a temp-file write
leaves the old content `old` intact. -/
def crashState (old : Str) : FsOp → Nat → Str
  | .writeTarget c, k => c.take k
  | .writeTemp _, _ => old
  | .renameTempToTarget, _ => old


/-! ### `set-deps` and the digit-run extraction it feeds -/

def sAsOf : Str := ['a', 's', ' ', 'o', 'f', ' ']

/-- Python's `', '.join(deps)`. -/
def joinSep : List Str → Str
  | [] => []
  | [d] => d
  | d :: rest => d ++ (',' :: ' ' :: joinSep rest)

/-- The dependencies string `set_deps` stores:
`f'as of {now}: ' + ', '.join(deps)`. -/
def setDepsStr (now : DateTime) (deps : List Str) : Str :=
  sAsOf ++ (isoDT now ++ (':' :: ' ' :: joinSep deps))

/-- `set_deps`'s effect on one loaded record: the record file whose id
matches gets the new dependencies string and timestamp. -/
def setDepsRec (tid : Str) (now : DateTime) (deps : List Str) (r : Rec) : Rec :=
  if r.meta.id = tid then
    ⟨⟨r.meta.id, r.meta.title, r.meta.status, setDepsStr now deps, now⟩,
      r.filename⟩
  else r

/-- The record set after running `set-deps tid deps`. -/
def applySetDeps (recs : List Rec) (tid : Str) (now : DateTime)
    (deps : List Str) : List Rec :=
  recs.map (setDepsRec tid now deps)

theorem setDepsRec_id (tid : Str) (now : DateTime) (deps : List Str)
    (r : Rec) : (setDepsRec tid now deps r).meta.id = r.meta.id := by
  rw [setDepsRec]
  by_cases h : r.meta.id = tid
  · rw [if_pos h]
  · rw [if_neg h]

theorem setDepsRec_status (tid : Str) (now : DateTime) (deps : List Str)
    (r : Rec) : (setDepsRec tid now deps r).meta.status = r.meta.status := by
  rw [setDepsRec]
  by_cases h : r.meta.id = tid
  · rw [if_pos h]
  · rw [if_neg h]

theorem setDepsRec_deps {tid : Str} (now : DateTime) (deps : List Str)
    {r : Rec} (h : r.meta.id = tid) :
    (setDepsRec tid now deps r).meta.dependencies = setDepsStr now deps := by
  rw [setDepsRec, if_pos h]

/-- The completed-run list of the digit-run fold is only ever appended to. -/
theorem foldr_drStep_out (A : Str) (r : Str) (L : List Str) :
    A.foldr drStep (r, L) =
      ((A.foldr drStep (r, [])).1, (A.foldr drStep (r, [])).2 ++ L) := by
  induction A with
  | nil => simp
  | cons c A' ih =>
    simp only [List.foldr_cons, ih]
    by_cases hd : c.isDigit
    · simp [drStep, hd]
    · simp only [drStep, hd, if_false, Bool.false_eq_true]
      by_cases he : ((A'.foldr drStep (r, [])).1).isEmpty
      · simp [he]
      · simp [he]

theorem digitRuns_cons_nondigit {c : Char} (h : c.isDigit = false) (B : Str) :
    digitRuns (c :: B) = digitRuns B := by
  rw [digitRuns, digitRuns]
  simp only [List.foldr_cons]
  rcases hfold : B.foldr drStep ([], []) with ⟨r, o⟩
  simp only [drStep, h, Bool.false_eq_true, if_false]
  by_cases he : r.isEmpty
  · simp [he]
  · simp [he]

theorem digitRuns_sep {c : Char} (h : c.isDigit = false) (A B : Str) :
    digitRuns (A ++ c :: B) = digitRuns A ++ digitRuns B := by
  rw [digitRuns, digitRuns, digitRuns]
  rw [List.foldr_append]
  simp only [List.foldr_cons]
  rcases hfold : B.foldr drStep ([], []) with ⟨r, o⟩
  simp only [drStep, h, Bool.false_eq_true, if_false]
  rw [show ((if r.isEmpty = true then o else r :: o) : List Str)
      = (if r.isEmpty = true then o else r :: o) from rfl]
  rw [foldr_drStep_out A [] (if r.isEmpty = true then o else r :: o)]
  rcases hA : A.foldr drStep ([], []) with ⟨a1, a2⟩
  by_cases ha : a1.isEmpty
  · simp [ha]
  · simp [ha]

theorem digitRuns_all_digit {d : Str} (hne : d ≠ [])
    (hd : ∀ c ∈ d, c.isDigit = true) : digitRuns d = [d] := by
  have hfold : d.foldr drStep ([], []) = (d, []) := by
    clear hne
    induction d with
    | nil => rfl
    | cons c t ih =>
      simp only [List.foldr_cons]
      rw [ih (fun x hx => hd x (List.mem_cons_of_mem _ hx))]
      simp [drStep, hd c (List.mem_cons_self _ _)]
  rw [digitRuns, hfold]
  match d, hne with
  | c :: t, _ => rfl

theorem digitRuns_joinSep {deps : List Str}
    (h : ∀ d ∈ deps, d ≠ [] ∧ ∀ c ∈ d, c.isDigit = true) :
    digitRuns (joinSep deps) = deps := by
  induction deps with
  | nil => rfl
  | cons d rest ih =>
    cases rest with
    | nil =>
      rw [joinSep]
      obtain ⟨hne, hd⟩ := h d (List.mem_cons_self _ _)
      exact digitRuns_all_digit hne hd
    | cons e rest' =>
      rw [show joinSep (d :: e :: rest') = d ++ ',' :: ' ' :: joinSep (e :: rest')
          from rfl]
      rw [digitRuns_sep (by decide), digitRuns_cons_nondigit (by decide)]
      obtain ⟨hne, hd⟩ := h d (List.mem_cons_self _ _)
      rw [digitRuns_all_digit hne hd,
        ih (fun x hx => h x (List.mem_cons_of_mem _ hx))]
      rfl

/-- What `re.findall(r"\d+")` extracts from a `set-deps` dependencies
string: the digit runs of the timestamp come first, then the given ids. -/
theorem digitRuns_setDepsStr (now : DateTime) (deps : List Str)
    (h : ∀ d ∈ deps, d ≠ [] ∧ ∀ c ∈ d, c.isDigit = true) :
    digitRuns (setDepsStr now deps) = digitRuns (isoDT now) ++ deps := by
  rw [show setDepsStr now deps
      = 'a' :: 's' :: ' ' :: 'o' :: 'f' :: ' ' ::
        (isoDT now ++ (':' :: ' ' :: joinSep deps)) from rfl]
  rw [digitRuns_cons_nondigit (by decide), digitRuns_cons_nondigit (by decide),
    digitRuns_cons_nondigit (by decide), digitRuns_cons_nondigit (by decide),
    digitRuns_cons_nondigit (by decide), digitRuns_cons_nondigit (by decide)]
  rw [digitRuns_sep (by decide), digitRuns_cons_nondigit (by decide),
    digitRuns_joinSep h]

theorem upsert_map_pres {f : Rec → Rec} (hf : ∀ r, (f r).meta.id = r.meta.id) :
    ∀ (m : List Rec) (r : Rec), upsert (m.map f) (f r) = (upsert m r).map f := by
  intro m
  induction m with
  | nil => intro r; rfl
  | cons x t ih =>
    intro r
    rw [List.map_cons, upsert, upsert, hf x, hf r]
    by_cases h : x.meta.id = r.meta.id
    · rw [if_pos h, if_pos h, List.map_cons]
    · rw [if_neg h, if_neg h, List.map_cons, ih r]

theorem buildAllMeta_map {f : Rec → Rec}
    (hf : ∀ r, (f r).meta.id = r.meta.id) (recs : List Rec) :
    buildAllMeta (recs.map f) = (buildAllMeta recs).map f := by
  rw [buildAllMeta, buildAllMeta, List.foldl_map]
  suffices h : ∀ acc : List Rec,
      List.foldl (fun a x => upsert a (f x)) (acc.map f) recs
        = (List.foldl upsert acc recs).map f by
    exact h []
  induction recs with
  | nil => intro acc; rfl
  | cons r t ih =>
    intro acc
    rw [List.foldl_cons, List.foldl_cons, upsert_map_pres hf, ih]

theorem metaKeys_map {f : Rec → Rec}
    (hf : ∀ r, (f r).meta.id = r.meta.id) (recs : List Rec) :
    metaKeys (recs.map f) = metaKeys recs := by
  rw [metaKeys, metaKeys, buildAllMeta_map hf, List.map_map]
  exact List.map_eq_map_iff.mpr (fun r _ => hf r)

theorem mergedIds_map {f : Rec → Rec}
    (hf : ∀ r, (f r).meta.id = r.meta.id)
    (hfs : ∀ r, (f r).meta.status = r.meta.status) (recs : List Rec) :
    mergedIds (recs.map f) = mergedIds recs := by
  rw [mergedIds, mergedIds, buildAllMeta_map hf, List.map_filter]
  rw [List.map_map]
  have hp : ((fun r : Rec => decide (r.meta.status = sMerged)) ∘ f)
      = fun r : Rec => decide (r.meta.status = sMerged) :=
    funext fun r => by simp [Function.comp, hfs r]
  rw [hp]
  exact List.map_eq_map_iff.mpr
    (fun r _ => hf r)

theorem findRec_map {f : Rec → Rec}
    (hf : ∀ r, (f r).meta.id = r.meta.id) (recs : List Rec) (tid : Str) :
    findRec (recs.map f) tid = (findRec recs tid).map f := by
  rw [findRec, findRec, buildAllMeta_map hf, List.find?_map]
  have hp : ((fun r : Rec => decide (r.meta.id = tid)) ∘ f)
      = fun r : Rec => decide (r.meta.id = tid) :=
    funext fun r => by simp [Function.comp, hf r]
  rw [hp]

theorem findRec_some_of_key {recs : List Rec} {tid : Str}
    (h : tid ∈ metaKeys recs) :
    ∃ r, findRec recs tid = some r ∧ r.meta.id = tid := by
  rw [metaKeys] at h
  obtain ⟨r0, hr0, hid⟩ := List.mem_map.mp h
  have hsome : ((buildAllMeta recs).find?
      (fun r => decide (r.meta.id = tid))).isSome :=
    List.find?_isSome.mpr ⟨r0, hr0, by simp [hid]⟩
  cases hf : (buildAllMeta recs).find? (fun r => decide (r.meta.id = tid)) with
  | none => rw [hf] at hsome; simp at hsome
  | some r1 =>
    have hp := List.find?_some hf
    exact ⟨r1, by rw [findRec]; exact hf, of_decide_eq_true hp⟩

/-- The active dependency set after `set-deps tid deps`: the given ids,
*preceded by the digit runs of the stored timestamp*, each filtered to
known non-merged ids. -/
theorem statusDeps_after_set_deps (recs : List Rec) (tid : Str)
    (now : DateTime) (deps : List Str) (hk : tid ∈ metaKeys recs)
    (hdeps : ∀ d ∈ deps, d ≠ [] ∧ ∀ c ∈ d, c.isDigit = true) :
    statusDeps (applySetDeps recs tid now deps) tid
      = (digitRuns (isoDT now) ++ deps).filter
          (fun d => (metaKeys recs).contains d &&
            !((mergedIds recs).contains d)) := by
  obtain ⟨r0, hr0, hid⟩ := findRec_some_of_key hk
  rw [statusDeps, applySetDeps,
    findRec_map (setDepsRec_id tid now deps) recs tid, hr0]
  rw [Option.map_some']
  dsimp only
  rw [show (setDepsRec tid now deps r0).meta.dependencies
      = setDepsStr now deps from setDepsRec_deps now deps hid]
  rw [digitRuns_setDepsStr now deps hdeps]
  rw [metaKeys_map (setDepsRec_id tid now deps),
    mergedIds_map (setDepsRec_id tid now deps) (setDepsRec_status tid now deps)]

/-! ### Concrete scenarios -/

def dt0 : DateTime := ⟨2023, 1, 1, 12, 0, 0, 0⟩
def s01 : Str := ['0', '1']
def s02 : Str := ['0', '2']
def s03 : Str := ['0', '3']
def s04 : Str := ['0', '4']
def s08 : Str := ['0', '8']
def s09 : Str := ['0', '9']
def s10 : Str := ['1', '0']
def s12 : Str := ['1', '2']
def sTitle : Str := ['t']
def sNotStarted : Str := ['N', 'o', 't', ' ', 's', 't', 'a', 'r', 't', 'e', 'd']
def sDone : Str := ['D', 'o', 'n', 'e']
def sBogus : Str := ['b', 'o', 'g', 'u', 's']

/-- A loaded record with the given id, dependencies string and status. -/
def mkRec (i dep stx : Str) : Rec :=
  ⟨⟨i, sTitle, stx, dep, dt0⟩, i ++ ['.', 'm', 'd']⟩

/-- Acyclic chain `01 → 02 → 03`. -/
def recsA : List Rec :=
  [mkRec s01 s02 sNotStarted, mkRec s02 s03 sNotStarted,
   mkRec s03 [] sNotStarted]

def rankA (s : Str) : Nat := 3 - idxOf [s01, s02, s03] s

/-- The synthetic cycle `01 → 02 → 03 → 01`. -/
def recsCyc : List Rec :=
  [mkRec s01 s02 sNotStarted, mkRec s02 s03 sNotStarted,
   mkRec s03 s01 sNotStarted]

/-- Two disjoint two-cycles. -/
def gTwo : List (Str × List Str) :=
  [(s01, [s02]), (s02, [s01]), (s03, [s04]), (s04, [s03])]

/-- Merged task 09 loaded before its dependent 08. -/
def recsM1 : List Rec := [mkRec s09 [] sMerged, mkRec s08 s09 sNotStarted]

/-- The same two records in the opposite load order. -/
def recsM2 : List Rec := [mkRec s08 s09 sNotStarted, mkRec s09 [] sMerged]

/-- An otherwise well-formed record with the out-of-enumeration status. -/
def tmBog : TaskMeta := ⟨['9', '9'], sTitle, sBogus, [], dt0⟩

def tm5 : TaskMeta := ⟨['9', '8'], sTitle, sNotStarted, [], dt0⟩

/-- A record file whose body starts with two spaces (no leading blank line). -/
def T5 : Str := saveContent tm5 [] ++ [' ', ' ', 'x']

/-- Tasks 10 and 12, neither merged. -/
def recs6 : List Rec := [mkRec s10 [] sNotStarted, mkRec s12 [] sNotStarted]

def tm7 : TaskMeta := ⟨['9', '7'], sTitle, sNotStarted, [], dt0⟩
def tm10 : TaskMeta := ⟨['9', '6'], sTitle, sNotStarted, [], dt0⟩

/-- A status value that collides with the frontmatter fence. -/
def evilStatus : Str := ['+', '+', '+']

/-- The spec's allowance for the body on a round trip, from its words:
"unchanged except for leading-blank-line normalization". -/
def specNormalizeBody (s : Str) : Str := lstripNl s

/-- `set-status` then reload, with the original record's fields clean. -/
theorem setStatus_saveContent {tm : TaskMeta} (body status : Str)
    (now : DateTime) (h1 : pppFree tm.id = true) (h2 : pppFree tm.title = true)
    (h3 : pppFree tm.status = true) (h4 : pppFree tm.dependencies = true)
    (h5 : ValidDT tm.last_updated) :
    setStatus (saveContent tm body) status now
      = some (saveContent ⟨tm.id, tm.title, status, tm.dependencies, now⟩
          (lstripWs body)) := by
  rw [setStatus, loadTask_saveContent body now h1 h2 h3 h4 h5]

set_option maxRecDepth 1000000

/-! ### The claims -/

/-- C1: for every loaded record set whose active dependency graph is
acyclic, the `status` command's topological sort succeeds and places every
dependency before its dependent in the displayed order. -/
theorem status_topo_respects_deps (recs : List Rec)
    (h : AcyclicRank (statusDeps recs)) :
    ∀ tid ∈ metaKeys recs, ∀ d ∈ statusDeps recs tid,
      Before (statusOrder recs) d tid := by
  obtain ⟨st, hst⟩ := statusTopo_total h
  have hinv0 : TInv (statusDeps recs) (metaKeys recs) ⟨[], []⟩ :=
    ⟨List.nodup_nil, fun x hx => absurd hx (List.not_mem_nil x),
     fun x hx => absurd hx (List.not_mem_nil x)⟩
  obtain ⟨_, hinv, hall, _, _⟩ :=
    (visit_spec (statusDeps recs) (metaKeys recs) (statusDeps_closed recs) _).2
      (metaKeys recs) ⟨[], []⟩ st hst hinv0 (fun m hm => hm)
  intro tid htid d hd
  rw [statusOrder, hst]
  exact hinv.2.1 tid (hall tid htid) d hd

theorem status_topo_respects_deps_witness :
    AcyclicRank (statusDeps recsA) ∧
    (∀ tid ∈ metaKeys recsA, ∀ d ∈ statusDeps recsA tid,
      Before (statusOrder recsA) d tid) :=
  have h : AcyclicRank (statusDeps recsA) :=
    acyclicRank_of_keys rankA (by decide)
  ⟨h, status_topo_respects_deps recsA h⟩

/-- C2 (amended): every cycle either checker reports is a genuine cycle of
the dependency map; a map that has any cycle always produces at least one
report from `check_tasks.py`'s `check_cycles`; and the synthetic cycle
`01 → 02 → 03 → 01` is reported as exactly that rotation. The original
claim's "reports every distinct cycle, not just the first" fails: the
pre-commit hook exits at the first cycle it meets. -/
theorem cycle_detection_amended :
    (∀ G : List (Str × List Str), ∀ c ∈ checkCycles G, IsCycle (gOf G) c) ∧
    (∀ G : List (Str × List Str), (G.map (fun kv => kv.1)).Nodup →
      HasCycle (gOf G) → checkCycles G ≠ []) ∧
    (∀ G : List (Str × List Str), ∀ c, hookRun G = .cycle c →
      IsCycle (gOf G) c) ∧
    checkCyclesRecs recsCyc = [[s01, s02, s03, s01]] :=
  ⟨checkCycles_sound,
   fun G hK hcyc hnil => absurd hcyc (checkCycles_complete hK hnil),
   fun G c h => hookRun_sound h,
   by decide⟩

/-- On two disjoint cycles `check_cycles` reports both, but the hook
(also named by the claim) aborts after reporting only the first. -/
theorem cycle_detection_counterexample :
    checkCycles gTwo = [[s01, s02, s01], [s03, s04, s03]] ∧
    hookRun gTwo = .cycle [s01, s02, s01] :=
  ⟨by decide, by decide⟩

/-- C3: `check_tasks.py` filters each record's dependencies against the
merged ids collected *so far*, so the active graph depends on load order:
08's dependency on merged 09 is elided when 09 loads first but kept when 09
loads last, while `status`'s two-pass build elides it in both orders. -/
theorem merged_filter_order_dependent :
    statusDeps recsM1 s08 = [] ∧ statusDeps recsM2 s08 = [] ∧
    ccDeps recsM1 s08 = [] ∧ ccDeps recsM2 s08 = [s09] :=
  ⟨by decide, by decide, by decide, by decide⟩

/-- C4: a record whose header carries the out-of-enumeration status
"bogus" but is otherwise well-formed loads successfully — `TaskMeta.status`
is a plain `str`, so no `ValidationError` is raised. -/
theorem bogus_status_load_succeeds :
    loadTask (saveContent tmBog ['B']) dt0 = .ok (tmBog, ['B']) ∧
    tmBog.status = sBogus :=
  ⟨rfl, rfl⟩

/-- C5 (amended): saving a loaded record with no field changes produces a
file that reparses to identical field values, and to a body equal to the
original stripped of ALL leading whitespace (`body.lstrip()`), not merely
of leading blank lines. -/
theorem round_trip_amended {text : Str} {now now' : DateTime} {tm : TaskMeta}
    {body : Str} (hnow : ValidDT now)
    (h : loadTask text now = .ok (tm, body)) :
    loadTask (saveContent tm body) now' = .ok (tm, lstripWs body) := by
  obtain ⟨h1, h2, h3, h4, h5⟩ := loadTask_fields h hnow
  exact loadTask_saveContent body now' h1 h2 h3 h4 h5

theorem round_trip_amended_witness :
    ValidDT dt0 ∧ loadTask T5 dt0 = .ok (tm5, [' ', ' ', 'x']) ∧
    loadTask (saveContent tm5 [' ', ' ', 'x']) dt0
      = .ok (tm5, lstripWs [' ', ' ', 'x']) :=
  ⟨by decide, rfl,
   @round_trip_amended T5 dt0 dt0 tm5 [' ', ' ', 'x'] (by decide) rfl⟩

/-- A body starting with two spaces has no leading blank line, so the
spec's normalization keeps it, yet the round trip returns it stripped. -/
theorem round_trip_counterexample :
    loadTask T5 dt0 = .ok (tm5, [' ', ' ', 'x']) ∧
    specNormalizeBody [' ', ' ', 'x'] = [' ', ' ', 'x'] ∧
    loadTask (saveContent tm5 [' ', ' ', 'x']) dt0 = .ok (tm5, ['x']) ∧
    ((['x'] : Str) = [' ', ' ', 'x'] → False) :=
  ⟨rfl, rfl, rfl, by decide⟩

/-- C6 (amended): after `set-deps tid deps` the active dependency set of
`tid` is the given ids filtered to known non-merged tasks, *preceded by the
digit runs of the stored `as of <timestamp>` prefix* filtered likewise —
`re.findall(r"\d+")` also extracts the timestamp's digits, so ids never
given can appear. -/
theorem set_deps_graph_amended (recs : List Rec) (tid : Str) (now : DateTime)
    (deps : List Str) (hk : tid ∈ metaKeys recs)
    (hdeps : ∀ d ∈ deps, d ≠ [] ∧ ∀ c ∈ d, c.isDigit = true) :
    statusDeps (applySetDeps recs tid now deps) tid
      = (digitRuns (isoDT now) ++ deps).filter
          (fun d => (metaKeys recs).contains d &&
            !((mergedIds recs).contains d)) :=
  statusDeps_after_set_deps recs tid now deps hk hdeps

theorem set_deps_graph_amended_witness :
    s10 ∈ metaKeys recs6 ∧
    statusDeps (applySetDeps recs6 s10 dt0 [s12]) s10
      = (digitRuns (isoDT dt0) ++ [s12]).filter
          (fun d => (metaKeys recs6).contains d &&
            !((mergedIds recs6).contains d)) :=
  ⟨by decide,
   set_deps_graph_amended recs6 s10 dt0 [s12] (by decide) (by decide)⟩

/-- `set-deps 10` with no dependencies at all still leaves task 10 actively
depending on task 12: the hour digits of the timestamp match a known id. -/
theorem set_deps_counterexample :
    statusDeps (applySetDeps recs6 s10 dt0 []) s10 = [s12] ∧
    (s12 ∈ ([] : List Str) → False) :=
  ⟨by decide, by decide⟩

/-- C7: `set-status` validates nothing: for ANY new status value the
command succeeds (the model returns `some`, the command exits 0) and the
record on disk afterwards carries that value — it neither fails with a
validation error nor leaves the record unchanged. -/
theorem set_status_accepts_any_value {tm : TaskMeta} (body status : Str)
    (now now2 : DateTime) (h1 : pppFree tm.id = true)
    (h2 : pppFree tm.title = true) (h3 : pppFree tm.status = true)
    (h4 : pppFree tm.dependencies = true) (h5 : ValidDT tm.last_updated)
    (hst : pppFree status = true) (hnow : ValidDT now) :
    setStatus (saveContent tm body) status now
      = some (saveContent ⟨tm.id, tm.title, status, tm.dependencies, now⟩
          (lstripWs body)) ∧
    ∃ body2, loadTask (saveContent ⟨tm.id, tm.title, status,
        tm.dependencies, now⟩ (lstripWs body)) now2
      = .ok (⟨tm.id, tm.title, status, tm.dependencies, now⟩, body2) :=
  ⟨setStatus_saveContent body status now h1 h2 h3 h4 h5,
   ⟨lstripWs (lstripWs body),
    loadTask_saveContent (lstripWs body) now2 h1 h2 hst h4 hnow⟩⟩

theorem set_status_accepts_any_value_witness :
    setStatus (saveContent tm7 ['B']) sBogus dt0
      = some (saveContent ⟨tm7.id, tm7.title, sBogus, tm7.dependencies, dt0⟩
          (lstripWs ['B'])) ∧
    ∃ body2, loadTask (saveContent ⟨tm7.id, tm7.title, sBogus,
        tm7.dependencies, dt0⟩ (lstripWs ['B'])) dt0
      = .ok (⟨tm7.id, tm7.title, sBogus, tm7.dependencies, dt0⟩, body2) :=
  set_status_accepts_any_value ['B'] sBogus dt0 dt0 (by decide) (by decide)
    (by decide) (by decide) (by decide) (by decide) (by decide)

/-- C8: `save_task` writes the record file in place with a single
`write_text` — no temp file, no rename — violating the required atomicity:
a crash two characters into the write leaves `++`, which no longer parses
as a record. -/
theorem save_task_not_atomic (tm : TaskMeta) (body old : Str)
    (now : DateTime) :
    saveTaskTrace tm body = [FsOp.writeTarget (saveContent tm body)] ∧
    ¬AtomicTrace (saveTaskTrace tm body) ∧
    crashState old (FsOp.writeTarget (saveContent tm body)) 2 = ['+', '+'] ∧
    loadTask ['+', '+'] now = .error .parse := by
  refine ⟨rfl, ?_, rfl, rfl⟩
  intro h
  exact h (FsOp.writeTarget (saveContent tm body)) (List.mem_cons_self _ _)
    (saveContent tm body) rfl

/-- C9: the id sequence `status` displays — the topological sort when it
succeeds, the filename fallback otherwise — lists each loaded task id
exactly once: it is a permutation of the loaded ids. -/
theorem status_order_permutation (recs : List Rec) :
    (statusOrder recs).Perm (metaKeys recs) := by
  rw [statusOrder]
  cases h : statusTopo recs with
  | ok st => exact statusTopo_ok_perm h
  | cycleAt n => exact fallbackOrder_perm recs
  | fuelOut => exact fallbackOrder_perm recs

/-- C10 (amended): provided the new status value contains no `+++` run,
`set-status` changes exactly the status and timestamp: id, title and
dependencies reparse unchanged and the body is preserved up to stripping
its leading whitespace. -/
theorem set_status_frame_amended {tm : TaskMeta} (body status : Str)
    (now now2 : DateTime) (h1 : pppFree tm.id = true)
    (h2 : pppFree tm.title = true) (h3 : pppFree tm.status = true)
    (h4 : pppFree tm.dependencies = true) (h5 : ValidDT tm.last_updated)
    (hst : pppFree status = true) (hnow : ValidDT now) :
    setStatus (saveContent tm body) status now
      = some (saveContent ⟨tm.id, tm.title, status, tm.dependencies, now⟩
          (lstripWs body)) ∧
    loadTask (saveContent ⟨tm.id, tm.title, status, tm.dependencies, now⟩
        (lstripWs body)) now2
      = .ok (⟨tm.id, tm.title, status, tm.dependencies, now⟩,
          lstripWs body) := by
  refine ⟨setStatus_saveContent body status now h1 h2 h3 h4 h5, ?_⟩
  have h := @loadTask_saveContent
    ⟨tm.id, tm.title, status, tm.dependencies, now⟩
    (lstripWs body) now2 h1 h2 hst h4 hnow
  rw [lstripWs_idem] at h
  exact h

theorem set_status_frame_amended_witness :
    setStatus (saveContent tm10 ['B']) sDone dt0
      = some (saveContent ⟨tm10.id, tm10.title, sDone, tm10.dependencies, dt0⟩
          (lstripWs ['B'])) ∧
    loadTask (saveContent ⟨tm10.id, tm10.title, sDone, tm10.dependencies, dt0⟩
        (lstripWs ['B'])) dt0
      = .ok (⟨tm10.id, tm10.title, sDone, tm10.dependencies, dt0⟩,
          lstripWs ['B']) :=
  set_status_frame_amended ['B'] sDone dt0 dt0 (by decide) (by decide)
    (by decide) (by decide) (by decide) (by decide) (by decide)

/-- A status value containing `+++` corrupts the saved record's fence:
reloading fails outright, so nothing of the record is preserved. -/
theorem set_status_counterexample :
    setStatus (saveContent tm10 ['B']) evilStatus dt0
      = some (saveContent ⟨tm10.id, tm10.title, evilStatus,
          tm10.dependencies, dt0⟩ ['B']) ∧
    loadTask (saveContent ⟨tm10.id, tm10.title, evilStatus,
        tm10.dependencies, dt0⟩ ['B']) dt0 = .error .toml :=
  ⟨rfl, rfl⟩

end TaskCore
